import Mathlib

/-!
Verification of the parman core against its specification.

This file shallowly embeds the parts of the parman source that the claims
C1 to C10 talk about:

* `src/parman/treeleaf.py` : trees of nested lists and dicts, `iterate_tree`
  and `transform_tree` (modelled at arity two, the arity the claims use).
* `src/parman/job.py` : the decision logic of `Job.__call__`, and the
  fingerprint helpers `compute_hashes`, `dump_hashes`, `load_hashes`.
* `src/parman/waitfuture.py` : `WaitFuture.set_state`, `WaitGraph.submit`,
  `WaitGraph._register`, `WaitGraph._unregister` and the done callback.
* `src/parman/scheduler.py` : `Scheduler.submit`, `_handle_wait_done` and
  the submit loop, as a small step transition system.

Python `dict` values are modelled as association lists in insertion order
(Python dicts preserve insertion order and have unique keys), file contents
as lists of characters or bytes, and machine level hashing (`hashlib`) as an
abstract function from byte lists to hex strings, taken as a parameter.
Parsed JSON documents (the contents of `kwargs.json` and `result.json`) are
modelled by an abstract type with decidable equality and a distinguished
element standing for the JSON literal `null`; the Python code only compares
such documents for equality and against `None`.
-/

namespace Parman

/-! ## Trees (src/parman/treeleaf.py)

A tree is a nest of lists and dicts whose other nodes are opaque leaves.
`Key` is one component of a `mulidx`: an integer index into a list or a
string key into a dict. -/

/-- One component of a `mulidx` path into a tree. -/
inductive Key where
  | idx : Nat → Key
  | str : String → Key
deriving DecidableEq, Repr

/-- A tree of nested lists and dicts; everything else is an opaque leaf. -/
inductive Tree (α : Type) where
  | leaf : α → Tree α
  | list : List (Tree α) → Tree α
  | dict : List (String × Tree α) → Tree α
deriving Repr

/-- The keys of a dict node, in insertion order. -/
def keysOf {α : Type} (fs : List (String × Tree α)) : List String :=
  fs.map Prod.fst

/-- `same(set(tree.keys()) for tree in trees)` : equality of key sets. -/
def sameKeySet (ks1 ks2 : List String) : Bool :=
  (ks1.all fun k => decide (k ∈ ks2)) && (ks2.all fun k => decide (k ∈ ks1))

mutual

/-- `iterate_tree` on a single tree: the list of its leaves, in the order
the Python generator yields them (list items in order, dict values in
insertion order). The multi-index is dropped because no modelled caller
uses it. -/
def iterate_tree {α : Type} : Tree α → List α
  | .leaf a => [a]
  | .list xs => iterateList xs
  | .dict fs => iterateDict fs

/-- Leaves of the items of a list node, in order. -/
def iterateList {α : Type} : List (Tree α) → List α
  | [] => []
  | t :: ts => iterate_tree t ++ iterateList ts

/-- Leaves of the values of a dict node, in insertion order. -/
def iterateDict {α : Type} : List (String × Tree α) → List α
  | [] => []
  | (_, t) :: fs => iterate_tree t ++ iterateDict fs

end

/-- The size of a successful lookup result is bounded by the size of the
association list, which justifies termination of `transform_tree`. -/
theorem sizeOf_lookup_le {α : Type} (k : String) (fs : List (String × Tree α)) :
    sizeOf (fs.lookup k) ≤ 1 + sizeOf fs := by
  induction fs with
  | nil => simp [List.lookup]
  | cons p rest ih =>
    obtain ⟨k2, v⟩ := p
    simp only [List.lookup]
    cases h : k == k2
    · simp only [h]
      refine le_trans ih ?_
      simp only [List.cons.sizeOf_spec, Prod.mk.sizeOf_spec]
      omega
    · simp only [h]
      simp only [Option.some.sizeOf_spec, List.cons.sizeOf_spec, Prod.mk.sizeOf_spec]
      omega

mutual

/-- `transform_tree` from src/parman/treeleaf.py, at arity two. Descends in
lock step while both nodes are lists of equal length or dicts with equal
key sets; at the first mismatch the current nodes are passed to the
transform as a pair and the result becomes a leaf. -/
def transform_tree {α β : Type} (f : List Key → Tree α → Tree α → β)
    (p : List Key) : Tree α → Tree α → Tree β
  | .list xs, .list ys =>
    if xs.length = ys.length then .list (transformList f p 0 xs ys)
    else .leaf (f p (.list xs) (.list ys))
  | .dict fs1, .dict fs2 =>
    if sameKeySet (keysOf fs1) (keysOf fs2) then
      .dict (transformDict f p fs1 fs2)
    else .leaf (f p (.dict fs1) (.dict fs2))
  | t1, t2 => .leaf (f p t1 t2)
termination_by t1 t2 => sizeOf t1 + sizeOf t2
decreasing_by
  all_goals simp_wf
  all_goals omega

/-- Lock step transformation of the items of two list nodes of equal
length; `i` is the index of the current item. -/
def transformList {α β : Type} (f : List Key → Tree α → Tree α → β)
    (p : List Key) (i : Nat) : List (Tree α) → List (Tree α) → List (Tree β)
  | x :: xs, y :: ys =>
    transform_tree f (p ++ [Key.idx i]) x y :: transformList f p (i + 1) xs ys
  | _, _ => []
termination_by xs ys => sizeOf xs + sizeOf ys
decreasing_by
  all_goals simp_wf
  all_goals omega

/-- Lock step transformation of two dict nodes: iterate the keys of the
first dict in insertion order and look each key up in the second, exactly
as the Python loop does with `tree[keyidx]`. -/
def transformDict {α β : Type} (f : List Key → Tree α → Tree α → β)
    (p : List Key) : List (String × Tree α) → List (String × Tree α) →
    List (String × Tree β)
  | [], _ => []
  | (k, sub1) :: rest, fs2 =>
    (k, transformPair f (p ++ [Key.str k]) sub1 (fs2.lookup k)) ::
      transformDict f p rest fs2
termination_by fs1 fs2 => sizeOf fs1 + sizeOf fs2
decreasing_by
  all_goals simp_wf
  all_goals first
  | omega
  | (have hlk := sizeOf_lookup_le k fs2
     omega)

/-- Transformation of one key of a dict node. The `none` case is
unreachable because the key sets were checked equal (Python would raise
`KeyError`); it recurses on the first subtree alone. -/
def transformPair {α β : Type} (f : List Key → Tree α → Tree α → β)
    (p : List Key) (sub1 : Tree α) : Option (Tree α) → Tree β
  | some sub2 => transform_tree f p sub1 sub2
  | none => .leaf (f p sub1 sub1)
termination_by o => sizeOf sub1 + sizeOf o
decreasing_by
  all_goals simp_wf

end

mutual

/-- The skeleton of a tree: the same nest of lists and dicts with every
leaf replaced by a unit. Two trees are structurally congruent exactly when
their skeletons are equal. -/
def skeleton {α : Type} : Tree α → Tree Unit
  | .leaf _ => .leaf ()
  | .list xs => .list (skeletonList xs)
  | .dict fs => .dict (skeletonDict fs)

/-- Skeletons of the items of a list node. -/
def skeletonList {α : Type} : List (Tree α) → List (Tree Unit)
  | [] => []
  | t :: ts => skeleton t :: skeletonList ts

/-- Skeletons of the values of a dict node, keeping the keys. -/
def skeletonDict {α : Type} : List (String × Tree α) → List (String × Tree Unit)
  | [] => []
  | (k, t) :: fs => (k, skeleton t) :: skeletonDict fs

end

mutual

/-- A tree is well keyed when every dict node has pairwise distinct keys.
Every tree obtained from a Python value is well keyed because Python dicts
cannot repeat keys. -/
def wellKeyed {α : Type} : Tree α → Bool
  | .leaf _ => true
  | .list xs => wellKeyedList xs
  | .dict fs => (keysOf fs).Nodup && wellKeyedDict fs

/-- All items of a list node are well keyed. -/
def wellKeyedList {α : Type} : List (Tree α) → Bool
  | [] => true
  | t :: ts => wellKeyed t && wellKeyedList ts

/-- All values of a dict node are well keyed. -/
def wellKeyedDict {α : Type} : List (String × Tree α) → Bool
  | [] => true
  | (_, t) :: fs => wellKeyed t && wellKeyedDict fs

end

/-- The lock step condition checked by `transform_tree` at the current
nodes: both are lists of equal length, or both are dicts with equal key
sets. When it fails, the nodes are treated as opaque leaves. -/
def lockstepTop {α : Type} : Tree α → Tree α → Bool
  | .list xs, .list ys => decide (xs.length = ys.length)
  | .dict fs1, .dict fs2 => sameKeySet (keysOf fs1) (keysOf fs2)
  | _, _ => false

theorem skeletonList_eq_map {α : Type} (xs : List (Tree α)) :
    skeletonList xs = xs.map skeleton := by
  induction xs with
  | nil => simp [skeletonList]
  | cons t ts ih => simp [skeletonList, ih]

theorem keysOf_skeletonDict {α : Type} (fs : List (String × Tree α)) :
    keysOf (skeletonDict fs) = keysOf fs := by
  induction fs with
  | nil => simp [skeletonDict, keysOf]
  | cons p rest ih =>
    obtain ⟨k, t⟩ := p
    simp [skeletonDict, keysOf] at ih ⊢
    exact ih

theorem sameKeySet_refl (ks : List String) : sameKeySet ks ks = true := by
  simp [sameKeySet, List.all_eq_true]

theorem wellKeyedDict_mem {α : Type} {fs : List (String × Tree α)} {k : String}
    {t : Tree α} (hw : wellKeyedDict fs = true) (hm : (k, t) ∈ fs) :
    wellKeyed t = true := by
  induction fs with
  | nil => cases hm
  | cons p rest ih =>
    obtain ⟨k2, t2⟩ := p
    simp only [wellKeyedDict, Bool.and_eq_true] at hw
    rcases List.mem_cons.mp hm with h | h
    · cases h; exact hw.1
    · exact ih hw.2 h

theorem wellKeyedList_mem {α : Type} {xs : List (Tree α)} {t : Tree α}
    (hw : wellKeyedList xs = true) (hm : t ∈ xs) : wellKeyed t = true := by
  induction xs with
  | nil => cases hm
  | cons x rest ih =>
    simp only [wellKeyedList, Bool.and_eq_true] at hw
    rcases List.mem_cons.mp hm with h | h
    · cases h; exact hw.1
    · exact ih hw.2 h

/-- Skeleton equality of two dict bodies locates, for every entry of the
first dict, a partner with equal skeleton under the key lookup that
`transform_tree` performs on the second dict. -/
theorem lookup_partner {α : Type} {fs1 fs2 : List (String × Tree α)}
    (hsk : skeletonDict fs1 = skeletonDict fs2) (hnd : (keysOf fs1).Nodup) :
    ∀ k t1, (k, t1) ∈ fs1 →
      ∃ t2, fs2.lookup k = some t2 ∧ skeleton t1 = skeleton t2 := by
  induction fs1 generalizing fs2 with
  | nil => intro k t1 hm; cases hm
  | cons p rest ih =>
    obtain ⟨k1, s1⟩ := p
    cases fs2 with
    | nil => simp [skeletonDict] at hsk
    | cons q r2 =>
      obtain ⟨k2, s2⟩ := q
      simp only [skeletonDict, List.cons.injEq, Prod.mk.injEq] at hsk
      obtain ⟨⟨hkeq, hseq⟩, hrest⟩ := hsk
      subst hkeq
      simp only [keysOf, List.map_cons, List.nodup_cons] at hnd
      intro k t1 hm
      rcases List.mem_cons.mp hm with h | h
      · cases h
        exact ⟨s2, by simp [List.lookup], hseq⟩
      · have hkne : (k == k1) = false := by
          refine beq_eq_false_iff_ne.mpr ?_
          intro heq; subst heq
          exact hnd.1 (by simpa using List.mem_map_of_mem Prod.fst h)
        obtain ⟨t2, hl, hs⟩ := ih hrest hnd.2 k t1 h
        exact ⟨t2, by simp [List.lookup, hkne, hl], hs⟩


/-- Core of claim C6: on well keyed, structurally congruent inputs,
`transform_tree` preserves the skeleton. Stated with an explicit size
bound to drive strong induction. -/
theorem skeleton_transform_tree {α β : Type} (f : List Key → Tree α → Tree α → β) :
    ∀ (n : Nat) (t1 t2 : Tree α) (p : List Key), sizeOf t1 ≤ n →
      wellKeyed t1 = true → skeleton t1 = skeleton t2 →
      skeleton (transform_tree f p t1 t2) = skeleton t1 := by
  intro n
  induction n with
  | zero =>
    intro t1 t2 p h _ _
    exfalso
    cases t1 <;>
      simp only [Tree.leaf.sizeOf_spec, Tree.list.sizeOf_spec,
        Tree.dict.sizeOf_spec] at h <;> omega
  | succ n ih =>
    intro t1 t2 p hsz hwk hsk
    cases t1 with
    | leaf a =>
      cases t2 with
      | leaf b => simp [transform_tree, skeleton]
      | list ys => simp [skeleton] at hsk
      | dict fs2 => simp [skeleton] at hsk
    | list xs =>
      cases t2 with
      | leaf b => simp [skeleton] at hsk
      | dict fs2 => simp [skeleton] at hsk
      | list ys =>
        simp only [skeleton, Tree.list.injEq] at hsk
        have hlen : xs.length = ys.length := by
          have := congrArg List.length hsk
          simpa [skeletonList_eq_map] using this
        have hmem : ∀ x ∈ xs, sizeOf x ≤ n ∧ wellKeyed x = true := by
          intro x hx
          have h1 := List.sizeOf_lt_of_mem hx
          have h2 : sizeOf (Tree.list xs) ≤ n + 1 := hsz
          simp only [Tree.list.sizeOf_spec] at h2
          exact ⟨by omega, wellKeyedList_mem (by simpa [wellKeyed] using hwk) hx⟩
        have haux : ∀ (xs2 ys2 : List (Tree α)) (i : Nat) (p2 : List Key),
            (∀ x ∈ xs2, sizeOf x ≤ n ∧ wellKeyed x = true) →
            skeletonList xs2 = skeletonList ys2 →
            skeletonList (transformList f p2 i xs2 ys2) = skeletonList xs2 := by
          intro xs2
          induction xs2 with
          | nil => intro ys2 i p2 _ _; simp [transformList, skeletonList]
          | cons x rest ih2 =>
            intro ys2 i p2 hm2 hsk2
            cases ys2 with
            | nil => simp [skeletonList] at hsk2
            | cons y yrest =>
              simp only [skeletonList, List.cons.injEq] at hsk2
              have hx := hm2 x (by simp)
              simp only [transformList, skeletonList]
              rw [ih x y (p2 ++ [Key.idx i]) hx.1 hx.2 hsk2.1,
                ih2 yrest (i + 1) p2 (fun z hz => hm2 z (by simp [hz])) hsk2.2]
        simp only [transform_tree]
        rw [if_pos hlen]
        simp only [skeleton, Tree.list.injEq]
        exact haux xs ys 0 p hmem hsk
    | dict fs1 =>
      cases t2 with
      | leaf b => simp [skeleton] at hsk
      | list ys => simp [skeleton] at hsk
      | dict fs2 =>
        simp only [skeleton, Tree.dict.injEq] at hsk
        simp only [wellKeyed, Bool.and_eq_true, decide_eq_true_eq] at hwk
        have hkeys : keysOf fs1 = keysOf fs2 := by
          rw [← keysOf_skeletonDict fs1, ← keysOf_skeletonDict fs2, hsk]
        have hsks : sameKeySet (keysOf fs1) (keysOf fs2) = true := by
          rw [← hkeys]; exact sameKeySet_refl _
        have hauxD : ∀ (fs : List (String × Tree α)) (p2 : List Key),
            (∀ k t1, (k, t1) ∈ fs → wellKeyed t1 = true ∧ sizeOf t1 ≤ n ∧
              ∃ t2, fs2.lookup k = some t2 ∧ skeleton t1 = skeleton t2) →
            skeletonDict (transformDict f p2 fs fs2) = skeletonDict fs := by
          intro fs
          induction fs with
          | nil => intro p2 _; simp [transformDict, skeletonDict]
          | cons q rest ihd =>
            obtain ⟨k, s1⟩ := q
            intro p2 hm2
            obtain ⟨hw1, hsz1, t2, hl, hs⟩ := hm2 k s1 (by simp)
            simp only [transformDict, skeletonDict, List.cons.injEq, Prod.mk.injEq]
            rw [hl]
            simp only [transformPair]
            exact ⟨⟨trivial, ih s1 t2 (p2 ++ [Key.str k]) hsz1 hw1 hs⟩,
              ihd p2 (fun k3 t3 h3 => hm2 k3 t3 (by simp [h3]))⟩
        simp only [transform_tree]
        rw [if_pos hsks]
        simp only [skeleton, Tree.dict.injEq]
        apply hauxD fs1 p
        intro k t1 hm
        have hs1 := List.sizeOf_lt_of_mem hm
        have hs2 : sizeOf (Tree.dict fs1) ≤ n + 1 := hsz
        simp only [Tree.dict.sizeOf_spec] at hs2
        have hs3 : sizeOf t1 < sizeOf (k, t1) := by
          simp only [Prod.mk.sizeOf_spec]; omega
        exact ⟨wellKeyedDict_mem hwk.2 hm, by omega,
          lookup_partner hsk hwk.1 k t1 hm⟩

/-- Mismatching top nodes are transformed as one opaque pair. -/
theorem transform_tree_mismatch {α β : Type} (f : List Key → Tree α → Tree α → β)
    (p : List Key) (t1 t2 : Tree α) (h : lockstepTop t1 t2 = false) :
    transform_tree f p t1 t2 = Tree.leaf (f p t1 t2) := by
  cases t1 <;> cases t2 <;>
    simp_all [lockstepTop, transform_tree]


/-- C6: for every transform function and pair of input trees,
`transform_tree` descends in lock step while the node types match and, at a
structural mismatch, treats the current nodes as opaque leaves passed to
the transform as a pair; for structurally congruent (equal skeleton, well
keyed) inputs, the output skeleton equals the input skeleton. -/
theorem C6_transform_tree_lockstep_congruence {α β : Type}
    (f : List Key → Tree α → Tree α → β) (p : List Key) (t1 t2 : Tree α) :
    (lockstepTop t1 t2 = false → transform_tree f p t1 t2 = Tree.leaf (f p t1 t2)) ∧
    (wellKeyed t1 = true → skeleton t1 = skeleton t2 →
      skeleton (transform_tree f p t1 t2) = skeleton t1) :=
  ⟨transform_tree_mismatch f p t1 t2,
    fun hw hs => skeleton_transform_tree f (sizeOf t1) t1 t2 p le_rfl hw hs⟩

/-- Witness for C6 at concrete inputs: two distinct leaves mismatch at the
top and are congruent, so both parts of the claim apply. -/
theorem C6_transform_tree_lockstep_congruence_witness :
    transform_tree (fun _ a b => (a, b)) [] (Tree.leaf 0) (Tree.leaf 1)
        = Tree.leaf ((Tree.leaf 0 : Tree Nat), (Tree.leaf 1 : Tree Nat)) ∧
    skeleton (transform_tree (fun _ a b => (a, b)) [] (Tree.leaf 0) (Tree.leaf 1))
        = skeleton (Tree.leaf (0 : Nat)) := by
  have h := C6_transform_tree_lockstep_congruence
    (fun _ a b => (a, b)) [] (Tree.leaf 0) (Tree.leaf 1)
  exact ⟨h.1 rfl, h.2 rfl rfl⟩


/-! ## Fingerprints (compute_hashes / dump_hashes / load_hashes,
src/parman/job.py)

File contents are byte lists, `hashlib.sha256` is abstracted by a function
`H` from byte lists to hex strings, and the filesystem below the workdir by
a function `fs` from path strings to file contents. -/

/-- A leaf of a kwargs tree: a filesystem path (a `pathlib.Path` instance
in Python) or any other JSON-able value, opaque here. -/
inductive JLeaf where
  | path : String → JLeaf
  | other : JLeaf
deriving DecidableEq, Repr

/-- Python dict insertion `d[k] = v`: update the value in place when the
key exists, else append the binding at the end. -/
def dinsert (d : List (String × String)) (k v : String) : List (String × String) :=
  if d.any (fun q => q.1 == k) then
    d.map (fun q => if q.1 == k then (k, v) else q)
  else d ++ [(k, v)]

/-- The read loop of `compute_hashes`: successive `f.read(1048576)` calls
until a read returns no bytes. The fuel argument (initially the length of
the content) only serves structural recursion; it never runs out because
every step consumes at least one byte. -/
def fileBlocksGo : Nat → List Nat → List (List Nat)
  | _, [] => []
  | 0, _ :: _ => []
  | fuel + 1, c :: rest =>
    ((c :: rest).take 1048576) :: fileBlocksGo fuel ((c :: rest).drop 1048576)

/-- The list of 1 MiB blocks `compute_hashes` feeds to `sha.update`. -/
def fileBlocks (content : List Nat) : List (List Nat) :=
  fileBlocksGo content.length content

/-- The incremental `hashlib.sha256` object: `update` concatenates the
absorbed blocks, `hexdigest` applies the abstract hash `H` to all of them. -/
def sha256_hexdigest (H : List Nat → String) (blocks : List (List Nat)) : String :=
  H blocks.flatten

/-- One iteration of the `compute_hashes` loop: a `Path` leaf records the
streamed hash of the referenced file under its path string, any other leaf
is skipped. -/
def hashStep (H : List Nat → String) (fs : String → List Nat)
    (result : List (String × String)) (leaf : JLeaf) : List (String × String) :=
  match leaf with
  | .path p => dinsert result p (sha256_hexdigest H (fileBlocks (fs p)))
  | .other => result

/-- `compute_hashes` from src/parman/job.py: for every `Path` leaf of the
kwargs tree, in leaf order, record the streamed hash of the referenced file
under the path string; a Python dict collects the entries. `H` abstracts
`hashlib.sha256` and `fs` maps a path to the bytes of the file it names
(relative to the workdir). -/
def compute_hashes (H : List Nat → String) (fs : String → List Nat)
    (data : Tree JLeaf) : List (String × String) :=
  (iterate_tree data).foldl (hashStep H fs) []

/-- The path string of a path leaf. -/
def leafPath : JLeaf → Option String
  | .path p => some p
  | .other => none

/-- The path strings occurring as leaves of a kwargs tree, in leaf order. -/
def pathLeaves (data : Tree JLeaf) : List String :=
  (iterate_tree data).filterMap leafPath

/-- Lexicographic strict order on `(path, sha)` pairs over the underlying
character lists: the order Python `sorted` uses on the tuples returned by
`hashes.items()`. -/
def pairLt (a b : String × String) : Prop :=
  a.1.data < b.1.data ∨ (a.1.data = b.1.data ∧ a.2.data < b.2.data)

instance pairLt.decidable (a b : String × String) : Decidable (pairLt a b) := by
  unfold pairLt; infer_instance

/-- Insert into a sorted list, after any element it does not strictly
precede; with `insertPair` folded from the right this is a stable sort. -/
def insertPair (x : String × String) :
    List (String × String) → List (String × String)
  | [] => [x]
  | y :: ys => if ¬ pairLt y x then x :: y :: ys else y :: insertPair x ys

/-- `sorted(hashes.items())`: stable sort in lexicographic tuple order. -/
def sortedItems (l : List (String × String)) : List (String × String) :=
  l.foldr insertPair []

/-- The line `dump_hashes` writes for one `(path, sha)` item. -/
def hashLine (kv : String × String) : List Char :=
  kv.2.data ++ [' ', ' '] ++ kv.1.data ++ ['\n']

/-- `dump_hashes` from src/parman/job.py: write one `"{sha}  {path}\n"`
line per item, in sorted item order. The result is the file content. -/
def dump_hashes (hashes : List (String × String)) : List Char :=
  ((sortedItems hashes).map hashLine).flatten

/-- Python whitespace, as `str.strip` removes it (ASCII subset). -/
def isPySpace (c : Char) : Bool :=
  c = ' ' || c = '\t' || c = '\n' || c = '\r' || c = '\x0b' || c = '\x0c'

/-- Python `str.strip()`: drop leading and trailing whitespace. -/
def pyStrip (l : List Char) : List Char :=
  ((l.dropWhile isPySpace).reverse.dropWhile isPySpace).reverse

/-- Membership in Python `string.hexdigits`. -/
def isHexDigit (c : Char) : Bool :=
  decide (c ∈ ("0123456789abcdefABCDEF".data))

/-- Iterating a text file by lines, each yielded line keeping its
terminating newline, a last unterminated chunk yielded without one. -/
def splitLinesAux : List Char → List Char → List (List Char)
  | [], acc => if acc.isEmpty then [] else [acc.reverse]
  | c :: cs, acc =>
    if c = '\n' then (acc.reverse ++ ['\n']) :: splitLinesAux cs []
    else splitLinesAux cs (c :: acc)

/-- The lines of a file content, as Python file iteration yields them. -/
def splitLines (content : List Char) : List (List Char) :=
  splitLinesAux content []

/-- One line of `load_hashes`: `sha = line[:64].lower()`,
`path = line[66:].strip()`, and the validity check; `none` models the
`ValueError` raised on a malformed line. -/
def parseHashLine (line : List Char) : Option (String × String) :=
  let sha := (line.take 64).map Char.toLower
  let path := pyStrip (line.drop 66)
  if path.length = 0 ∨ sha.length ≠ 64 ∨ ¬ (sha.all isHexDigit) then none
  else some (String.mk path, String.mk sha)

/-- One step of the `load_hashes` loop over lines; `none` propagates a
previously raised `ValueError`. -/
def loadStep (acc : Option (List (String × String))) (line : List Char) :
    Option (List (String × String)) :=
  match acc with
  | none => none
  | some d =>
    match parseHashLine line with
    | none => none
    | some kv => some (dinsert d kv.1 kv.2)

/-- `load_hashes` from src/parman/job.py: parse every line into
`result[path] = sha`; a malformed line aborts with `ValueError` (`none`). -/
def load_hashes (content : List Char) : Option (List (String × String)) :=
  (splitLines content).foldl loadStep (some [])


/-! ### Order facts for the item sort -/

/-- The reflexive companion of `pairLt`. -/
def PairLe (a b : String × String) : Prop := ¬ pairLt b a

theorem pairLt_asymm {a b : String × String} (h : pairLt a b) : ¬ pairLt b a := by
  intro hb
  rcases h with h | ⟨he, h2⟩ <;> rcases hb with hb | ⟨hbe, hb2⟩
  · exact lt_asymm h hb
  · exact absurd (hbe ▸ h) (lt_irrefl _)
  · exact absurd (he ▸ hb) (lt_irrefl _)
  · exact lt_asymm h2 hb2

theorem PairLe_trans {a b c : String × String} (h1 : PairLe a b)
    (h2 : PairLe b c) : PairLe a c := by
  intro hca
  rcases lt_trichotomy a.1.data b.1.data with hk | hk | hk
  · refine h2 ?_
    rcases hca with hca | ⟨hce, hcs⟩
    · exact Or.inl (lt_trans hca hk)
    · exact Or.inl (hce ▸ hk)
  · rcases lt_trichotomy a.2.data b.2.data with hv | hv | hv
    · refine h2 ?_
      rcases hca with hca | ⟨hce, hcs⟩
      · exact Or.inl (hk ▸ hca)
      · exact Or.inr ⟨hce.trans hk, lt_trans hcs hv⟩
    · refine h2 ?_
      rcases hca with hca | ⟨hce, hcs⟩
      · exact Or.inl (hk ▸ hca)
      · exact Or.inr ⟨hce.trans hk, hv ▸ hcs⟩
    · exact h1 (Or.inr ⟨hk.symm, hv⟩)
  · exact h1 (Or.inl hk)

theorem insertPair_perm (x : String × String) (l : List (String × String)) :
    List.Perm (insertPair x l) (x :: l) := by
  induction l with
  | nil => simp [insertPair]
  | cons y ys ih =>
    by_cases h : pairLt y x
    · simp only [insertPair, if_neg (not_not_intro h)]
      exact (ih.cons y).trans (List.Perm.swap x y ys)
    · simp only [insertPair, if_pos h]
      exact List.Perm.refl _

theorem sortedItems_perm (l : List (String × String)) :
    List.Perm (sortedItems l) l := by
  induction l with
  | nil => simp [sortedItems]
  | cons x xs ih =>
    have hs : sortedItems (x :: xs) = insertPair x (sortedItems xs) := rfl
    rw [hs]
    exact (insertPair_perm x (sortedItems xs)).trans (ih.cons x)

theorem insertPair_pairwise (x : String × String) (l : List (String × String))
    (h : l.Pairwise PairLe) : (insertPair x l).Pairwise PairLe := by
  induction l with
  | nil => simp [insertPair, List.Pairwise]
  | cons y ys ih =>
    rw [List.pairwise_cons] at h
    by_cases hlt : pairLt y x
    · simp only [insertPair, if_neg (not_not_intro hlt)]
      rw [List.pairwise_cons]
      refine ⟨?_, ih h.2⟩
      intro z hz
      rcases List.mem_cons.mp (((insertPair_perm x ys).mem_iff).mp hz) with hz | hz
      · subst hz; exact pairLt_asymm hlt
      · exact h.1 z hz
    · simp only [insertPair, if_pos hlt]
      rw [List.pairwise_cons]
      refine ⟨?_, List.Pairwise.cons h.1 h.2⟩
      intro z hz
      rcases List.mem_cons.mp hz with hz | hz
      · subst hz; exact hlt
      · exact PairLe_trans hlt (h.1 z hz)

theorem sortedItems_pairwise (l : List (String × String)) :
    (sortedItems l).Pairwise PairLe := by
  induction l with
  | nil => simp [sortedItems, List.Pairwise]
  | cons x xs ih => exact insertPair_pairwise x (sortedItems xs) ih

/-! ### Properties of Python dict insertion -/

theorem dinsert_of_not_mem {d : List (String × String)} {k : String}
    (v : String) (h : k ∉ d.map Prod.fst) : dinsert d k v = d ++ [(k, v)] := by
  rw [dinsert, if_neg]
  simp only [List.any_eq_true, beq_iff_eq, not_exists, not_and, Prod.exists]
  intro a b hab hak
  exact h (hak ▸ List.mem_map_of_mem Prod.fst hab)

/-- Updating an existing key in place does not change the key sequence. -/
theorem map_fst_update (d : List (String × String)) (k v : String) :
    (d.map (fun q => if q.1 == k then (k, v) else q)).map Prod.fst
      = d.map Prod.fst := by
  induction d with
  | nil => rfl
  | cons q rest ih =>
    by_cases h : q.1 == k
    · simp only [List.map_cons, if_pos h, ih, List.cons.injEq, and_true]
      exact (beq_iff_eq.mp h).symm
    · simp only [List.map_cons, if_neg h, ih]

theorem dinsert_keys_mem {d : List (String × String)} {k v : String} (x : String) :
    x ∈ (dinsert d k v).map Prod.fst ↔ x ∈ d.map Prod.fst ∨ x = k := by
  rw [dinsert]
  by_cases h : d.any (fun q => q.1 == k)
  · rw [if_pos h, map_fst_update]
    have hk : k ∈ d.map Prod.fst := by
      simp only [List.any_eq_true, beq_iff_eq] at h
      obtain ⟨q, hq, hqk⟩ := h
      exact hqk ▸ List.mem_map_of_mem Prod.fst hq
    constructor
    · exact Or.inl
    · rintro (hx | rfl)
      · exact hx
      · exact hk
  · rw [if_neg h]
    simp

theorem dinsert_nodup {d : List (String × String)} {k v : String}
    (h : (d.map Prod.fst).Nodup) : ((dinsert d k v).map Prod.fst).Nodup := by
  rw [dinsert]
  by_cases hA : d.any (fun q => q.1 == k)
  · rw [if_pos hA, map_fst_update]; exact h
  · rw [if_neg hA]
    have hk : k ∉ d.map Prod.fst := by
      simp only [List.any_eq_true, beq_iff_eq] at hA
      intro hm
      obtain ⟨q, hq, hqk⟩ := List.mem_map.mp hm
      exact hA ⟨q, hq, hqk⟩
    simp only [List.map_append, List.map_cons, List.map_nil]
    rw [List.nodup_append]
    exact ⟨h, List.nodup_singleton k, by simpa using hk⟩

/-- An invariant on bindings is preserved by dict insertion. -/
theorem dinsert_values {V : String → String → Prop} {d : List (String × String)}
    {k v : String} (hd : ∀ q ∈ d, V q.1 q.2) (hv : V k v) :
    ∀ q ∈ dinsert d k v, V q.1 q.2 := by
  intro q hq
  rw [dinsert] at hq
  by_cases h : d.any (fun q => q.1 == k)
  · rw [if_pos h] at hq
    obtain ⟨q0, hq0, hq0q⟩ := List.mem_map.mp hq
    by_cases h0 : q0.1 == k
    · rw [if_pos h0] at hq0q; subst hq0q; exact hv
    · rw [if_neg h0] at hq0q; subst hq0q; exact hd q0 hq0
  · rw [if_neg h] at hq
    rcases List.mem_append.mp hq with hq | hq
    · exact hd q hq
    · rw [List.mem_singleton.mp hq]; exact hv


/-- Two permuted association lists with duplicate free keys agree on every
lookup: the notion of Python dict equality used by the round trip claim. -/
theorem lookup_eq_of_perm {l1 l2 : List (String × String)}
    (hp : List.Perm l1 l2) (hnd : (l1.map Prod.fst).Nodup) (k : String) :
    l1.lookup k = l2.lookup k := by
  induction hp with
  | nil => rfl
  | cons x _ ih =>
    simp only [List.map_cons, List.nodup_cons] at hnd
    simp only [List.lookup]
    cases k == x.1 <;> simp [ih hnd.2]
  | swap x y l =>
    simp only [List.map_cons, List.nodup_cons, List.mem_cons] at hnd
    have hxy : ¬ (y.1 = x.1) := fun h => hnd.1 (Or.inl h)
    simp only [List.lookup]
    cases hky : k == y.1 <;> cases hkx : k == x.1 <;> simp_all
  | trans h1 h2 ih1 ih2 =>
    have hnd2 := ((h1.map Prod.fst).nodup_iff).mp hnd
    rw [ih1 hnd, ih2 hnd2]

/-- The streamed blocks concatenate back to the whole file, so the
incremental hash equals the hash of the full content. -/
theorem flatten_fileBlocksGo :
    ∀ (n : Nat) (c : List Nat), c.length ≤ n → (fileBlocksGo n c).flatten = c := by
  intro n
  induction n with
  | zero =>
    intro c hc
    rw [List.length_eq_zero.mp (Nat.le_zero.mp hc)]
    rfl
  | succ n ih =>
    intro c hc
    cases c with
    | nil => rfl
    | cons b rest =>
      simp only [fileBlocksGo, List.flatten_cons]
      rw [ih _ (by simp only [List.length_drop, List.length_cons] at hc ⊢; omega)]
      exact List.take_append_drop _ _

theorem sha256_hexdigest_fileBlocks (H : List Nat → String) (c : List Nat) :
    sha256_hexdigest H (fileBlocks c) = H c := by
  rw [sha256_hexdigest, fileBlocks, flatten_fileBlocksGo c.length c le_rfl]

/-- Splitting off one newline terminated line. -/
theorem splitLinesAux_append (body rest : List Char) :
    ∀ acc, '\n' ∉ body →
    splitLinesAux (body ++ '\n' :: rest) acc
      = ((acc.reverse ++ body) ++ ['\n']) :: splitLinesAux rest [] := by
  induction body with
  | nil => intro acc _; simp [splitLinesAux]
  | cons c cs ih =>
    intro acc h
    have hc : c ≠ '\n' := fun hh => h (hh ▸ List.mem_cons_self c cs)
    simp only [List.cons_append, splitLinesAux, if_neg hc, List.append_eq]
    rw [ih (c :: acc) (fun hm => h (List.mem_cons_of_mem c hm))]
    simp

/-- A file made of newline terminated lines splits back into those lines. -/
theorem splitLines_flatten (ls : List (List Char))
    (h : ∀ l ∈ ls, ∃ body, l = body ++ ['\n'] ∧ '\n' ∉ body) :
    splitLines ls.flatten = ls := by
  induction ls with
  | nil => rfl
  | cons l rest ih =>
    obtain ⟨body, hb, hnl⟩ := h l (List.mem_cons_self l rest)
    subst hb
    rw [List.flatten_cons]
    show splitLinesAux ((body ++ ['\n']) ++ rest.flatten) [] = _
    rw [List.append_assoc, List.singleton_append,
      splitLinesAux_append body rest.flatten [] hnl]
    rw [show splitLinesAux rest.flatten [] = splitLines rest.flatten from rfl,
      ih (fun l hl => h l (List.mem_cons_of_mem _ hl))]
    simp


/-- The lowercase hexadecimal digits. -/
def lowHexChars : List Char := "0123456789abcdef".data

theorem lowHex_toLower : ∀ c ∈ lowHexChars, Char.toLower c = c := by decide

theorem lowHex_isHexDigit : ∀ c ∈ lowHexChars, isHexDigit c = true := by decide

theorem lowHex_ne_newline : ∀ c ∈ lowHexChars, c ≠ '\n' := by decide

/-- Parsing the line written for a well formed `(path, sha)` binding
recovers the binding. -/
theorem parseHashLine_hashLine (p s : String)
    (hp0 : p.data ≠ [])
    (hpf : p.data.dropWhile isPySpace = p.data)
    (hpb : p.data.reverse.dropWhile isPySpace = p.data.reverse)
    (hs64 : s.data.length = 64)
    (hshex : ∀ c ∈ s.data, c ∈ lowHexChars) :
    parseHashLine (hashLine (p, s)) = some (p, s) := by
  obtain ⟨c, cs, hpd⟩ := List.exists_cons_of_ne_nil hp0
  have hcns : ¬ (isPySpace c = true) := by
    rw [hpd] at hpf
    rw [List.dropWhile_eq_self_iff] at hpf
    exact hpf (by simp)
  have hline : hashLine (p, s) = (s.data ++ [' ', ' ']) ++ (p.data ++ ['\n']) := by
    simp [hashLine]
  have h66 : (s.data ++ [' ', ' ']).length = 66 := by simp [hs64]
  have hA : (hashLine (p, s)).take 64 = s.data := by
    rw [hline, List.append_assoc, ← hs64, List.take_left]
  have hB : (hashLine (p, s)).drop 66 = p.data ++ ['\n'] := by
    rw [hline, ← h66, List.drop_left]
  have hC : s.data.map Char.toLower = s.data := by
    rw [List.map_congr_left (fun a ha => lowHex_toLower a (hshex a ha))]
    exact List.map_id s.data
  have hD : pyStrip (p.data ++ ['\n']) = p.data := by
    rw [pyStrip]
    have hfront : (p.data ++ ['\n']).dropWhile isPySpace = p.data ++ ['\n'] := by
      rw [hpd, List.cons_append, List.dropWhile_cons, if_neg hcns]
    rw [hfront, List.reverse_append]
    have : (['\n'] : List Char).reverse = ['\n'] := rfl
    rw [this, List.singleton_append, List.dropWhile_cons,
      if_pos (by decide), hpb, List.reverse_reverse]
  have hcond : ¬ (p.data.length = 0 ∨ s.data.length ≠ 64 ∨
      ¬ s.data.all isHexDigit = true) := by
    push_neg
    refine ⟨fun hh => hp0 (List.length_eq_zero.mp hh), hs64, ?_⟩
    simp only [List.all_eq_true]
    exact fun d hd => lowHex_isHexDigit d (hshex d hd)
  rw [parseHashLine, hA, hB, hC, hD, if_neg hcond]

/-- Folding fresh keyed bindings into a dict appends them in order. -/
theorem foldl_dinsert_append :
    ∀ (items d0 : List (String × String)),
      (d0.map Prod.fst ++ items.map Prod.fst).Nodup →
      items.foldl (fun d kv => dinsert d kv.1 kv.2) d0 = d0 ++ items := by
  intro items
  induction items with
  | nil => intro d0 _; simp
  | cons kv rest ih =>
    intro d0 hnd
    have hk : kv.1 ∉ d0.map Prod.fst := by
      rw [List.nodup_append] at hnd
      exact fun hm => hnd.2.2 hm (by simp)
    simp only [List.foldl_cons]
    rw [dinsert_of_not_mem _ hk, ih (d0 ++ [kv]) (by simpa using hnd)]
    simp

/-- Parsing the dumped lines folds the items back into a dict. -/
theorem load_fold_lines :
    ∀ (items d : List (String × String)),
      (∀ kv ∈ items, parseHashLine (hashLine kv) = some kv) →
      (items.map hashLine).foldl loadStep (some d)
        = some (items.foldl (fun d2 kv => dinsert d2 kv.1 kv.2) d) := by
  intro items
  induction items with
  | nil => intro d _; rfl
  | cons kv rest ih =>
    intro d h
    simp only [List.map_cons, List.foldl_cons, loadStep,
      h kv (List.mem_cons_self kv rest)]
    exact ih _ (fun kv2 h2 => h kv2 (List.mem_cons_of_mem kv h2))

/-- C10: for every dict of well formed path strings (nonempty, no newline,
no leading or trailing whitespace) mapped to 64 character lowercase hex
digests, writing with `dump_hashes` and reading back with `load_hashes`
returns a dict equal to the original (same bindings, here: a permutation
with identical lookups). -/
theorem C10_dump_load_roundtrip (h : List (String × String))
    (hnd : (h.map Prod.fst).Nodup)
    (hpaths : ∀ kv ∈ h, kv.1.data ≠ [] ∧ '\n' ∉ kv.1.data ∧
      kv.1.data.dropWhile isPySpace = kv.1.data ∧
      kv.1.data.reverse.dropWhile isPySpace = kv.1.data.reverse)
    (hshas : ∀ kv ∈ h, kv.2.data.length = 64 ∧ ∀ c ∈ kv.2.data, c ∈ lowHexChars) :
    load_hashes (dump_hashes h) = some (sortedItems h) ∧
    List.Perm (sortedItems h) h ∧
    ∀ k, (sortedItems h).lookup k = h.lookup k := by
  have hperm := sortedItems_perm h
  have hmem : ∀ kv ∈ sortedItems h, kv ∈ h := fun kv hk => hperm.mem_iff.mp hk
  have hlines : ∀ l ∈ (sortedItems h).map hashLine,
      ∃ body, l = body ++ ['\n'] ∧ '\n' ∉ body := by
    intro l hl
    obtain ⟨kv, hkv, rfl⟩ := List.mem_map.mp hl
    refine ⟨kv.2.data ++ [' ', ' '] ++ kv.1.data, by simp [hashLine], ?_⟩
    intro hmm
    rcases List.mem_append.mp hmm with hmm | hmm
    · rcases List.mem_append.mp hmm with hmm | hmm
      · exact lowHex_ne_newline _ ((hshas kv (hmem kv hkv)).2 _ hmm) rfl
      · simp at hmm
    · exact (hpaths kv (hmem kv hkv)).2.1 hmm
  have hsplit : splitLines (dump_hashes h) = (sortedItems h).map hashLine := by
    rw [dump_hashes]
    exact splitLines_flatten _ hlines
  have hparse : ∀ kv ∈ sortedItems h, parseHashLine (hashLine kv) = some kv := by
    intro kv hkv
    obtain ⟨hp0, hnl, hpf, hpb⟩ := hpaths kv (hmem kv hkv)
    obtain ⟨hs64, hhex⟩ := hshas kv (hmem kv hkv)
    exact parseHashLine_hashLine kv.1 kv.2 hp0 hpf hpb hs64 hhex
  have hnd2 : ((sortedItems h).map Prod.fst).Nodup :=
    ((hperm.map Prod.fst).nodup_iff).mpr hnd
  refine ⟨?_, hperm, fun k => lookup_eq_of_perm hperm hnd2 k⟩
  rw [load_hashes, hsplit, load_fold_lines _ [] hparse,
    foldl_dinsert_append _ [] (by simpa using hnd2)]
  simp

/-- A concrete hash dict for the C10 witness. -/
def hC10 : List (String × String) :=
  [("beta.txt", String.mk (List.replicate 64 '0')),
   ("alpha.txt", String.mk ('1' :: List.replicate 63 '0'))]

/-- Witness for C10 at a concrete two entry dict. -/
theorem C10_dump_load_roundtrip_witness :
    load_hashes (dump_hashes hC10) = some (sortedItems hC10) ∧
    List.Perm (sortedItems hC10) hC10 ∧
    ∀ k, (sortedItems hC10).lookup k = hC10.lookup k :=
  C10_dump_load_roundtrip hC10 (by decide) (by decide) (by decide)


/-! ### Properties of compute_hashes -/

theorem hashFold_keys_mem (H : List Nat → String) (fs : String → List Nat) :
    ∀ (ls : List JLeaf) (d : List (String × String)) (x : String),
      (x ∈ (ls.foldl (hashStep H fs) d).map Prod.fst ↔
        x ∈ d.map Prod.fst ∨ x ∈ ls.filterMap leafPath) := by
  intro ls
  induction ls with
  | nil => intro d x; simp
  | cons l rest ih =>
    intro d x
    cases l with
    | path p =>
      simp only [List.foldl_cons, hashStep, ih, dinsert_keys_mem,
        List.filterMap_cons, leafPath]
      simp only [List.mem_cons]
      tauto
    | other =>
      simp only [List.foldl_cons, hashStep, ih, List.filterMap_cons, leafPath]

theorem hashFold_nodup (H : List Nat → String) (fs : String → List Nat) :
    ∀ (ls : List JLeaf) (d : List (String × String)),
      (d.map Prod.fst).Nodup → ((ls.foldl (hashStep H fs) d).map Prod.fst).Nodup := by
  intro ls
  induction ls with
  | nil => intro d hd; simpa using hd
  | cons l rest ih =>
    intro d hd
    cases l with
    | path p => exact ih _ (dinsert_nodup hd)
    | other => exact ih _ hd

theorem hashFold_values (H : List Nat → String) (fs : String → List Nat) :
    ∀ (ls : List JLeaf) (d : List (String × String)),
      (∀ kv ∈ d, kv.2 = sha256_hexdigest H (fileBlocks (fs kv.1))) →
      ∀ kv ∈ ls.foldl (hashStep H fs) d,
        kv.2 = sha256_hexdigest H (fileBlocks (fs kv.1)) := by
  intro ls
  induction ls with
  | nil => intro d hd; simpa using hd
  | cons l rest ih =>
    intro d hd
    cases l with
    | path p =>
      refine ih _ ?_
      exact @dinsert_values
        (fun a b => b = sha256_hexdigest H (fileBlocks (fs a))) _ _ _ hd rfl
    | other => exact ih _ hd

theorem hashFold_congr (H : List Nat → String) (fs fs2 : String → List Nat) :
    ∀ (ls : List JLeaf) (d : List (String × String)),
      (∀ p ∈ ls.filterMap leafPath, fs p = fs2 p) →
      ls.foldl (hashStep H fs) d = ls.foldl (hashStep H fs2) d := by
  intro ls
  induction ls with
  | nil => intro d _; rfl
  | cons l rest ih =>
    intro d hag
    cases l with
    | path p =>
      simp only [List.foldl_cons, hashStep]
      rw [hag p (by simp [List.filterMap_cons, leafPath])]
      exact ih _ (fun q hq => hag q (by simp [List.filterMap_cons, leafPath, hq]))
    | other =>
      simp only [List.foldl_cons, hashStep]
      exact ih _ (fun q hq => hag q (by simp [List.filterMap_cons, leafPath, hq]))

/-- C7 (amended): the `kwargs.sha256` content has exactly one line per
distinct file path leaf of the kwargs tree, in sorted order, each line
`"{sha}  {path}\n"` where the sha is the hash of the streamed file, which
equals the hash of the whole file content; and the content depends only on
the referenced files, so recomputation over unchanged files is byte
identical. -/
theorem C7_kwargs_sha256_lines (H : List Nat → String)
    (fs fs2 : String → List Nat) (t : Tree JLeaf)
    (hH : ∀ bs, (H bs).data.length = 64 ∧ ∀ c ∈ (H bs).data, c ∈ lowHexChars)
    (hpnl : ∀ p ∈ pathLeaves t, '\n' ∉ p.data) :
    splitLines (dump_hashes (compute_hashes H fs t))
        = (sortedItems (compute_hashes H fs t)).map hashLine ∧
    (∀ kv ∈ compute_hashes H fs t, kv.2 = H (fs kv.1)) ∧
    (∀ x, x ∈ (compute_hashes H fs t).map Prod.fst ↔ x ∈ pathLeaves t) ∧
    ((compute_hashes H fs t).map Prod.fst).Nodup ∧
    (sortedItems (compute_hashes H fs t)).Pairwise PairLe ∧
    ((∀ p ∈ pathLeaves t, fs p = fs2 p) →
      dump_hashes (compute_hashes H fs t) = dump_hashes (compute_hashes H fs2 t)) := by
  have hvals : ∀ kv ∈ compute_hashes H fs t, kv.2 = H (fs kv.1) := by
    intro kv hkv
    have := hashFold_values H fs (iterate_tree t) [] (by simp) kv hkv
    rwa [sha256_hexdigest_fileBlocks] at this
  have hkeys : ∀ x, x ∈ (compute_hashes H fs t).map Prod.fst ↔ x ∈ pathLeaves t := by
    intro x
    have := hashFold_keys_mem H fs (iterate_tree t) [] x
    simpa [compute_hashes, pathLeaves] using this
  have hnodup : ((compute_hashes H fs t).map Prod.fst).Nodup :=
    hashFold_nodup H fs (iterate_tree t) [] (by simp)
  have hperm := sortedItems_perm (compute_hashes H fs t)
  have hlines : ∀ l ∈ (sortedItems (compute_hashes H fs t)).map hashLine,
      ∃ body, l = body ++ ['\n'] ∧ '\n' ∉ body := by
    intro l hl
    obtain ⟨kv, hkv, rfl⟩ := List.mem_map.mp hl
    have hkv2 : kv ∈ compute_hashes H fs t := hperm.mem_iff.mp hkv
    refine ⟨kv.2.data ++ [' ', ' '] ++ kv.1.data, by simp [hashLine], ?_⟩
    intro hmm
    rcases List.mem_append.mp hmm with hmm | hmm
    · rcases List.mem_append.mp hmm with hmm | hmm
      · have hv := hvals kv hkv2
        rw [hv] at hmm
        exact lowHex_ne_newline _ ((hH (fs kv.1)).2 _ hmm) rfl
      · simp at hmm
    · refine hpnl kv.1 ?_ hmm
      exact (hkeys kv.1).mp (List.mem_map_of_mem Prod.fst hkv2)
  refine ⟨?_, hvals, hkeys, hnodup, sortedItems_pairwise _, ?_⟩
  · rw [dump_hashes]
    exact splitLines_flatten _ hlines
  · intro hag
    rw [compute_hashes, compute_hashes,
      hashFold_congr H fs fs2 (iterate_tree t) [] (by simpa [pathLeaves] using hag)]


/-- A concrete stand in for sha256: the constant all zero digest. -/
def H0 : List Nat → String := fun _ => String.mk (List.replicate 64 '0')

/-- A concrete filesystem: every file is empty. -/
def fs0 : String → List Nat := fun _ => []

/-- A concrete kwargs tree with two distinct path leaves. -/
def tC7 : Tree JLeaf :=
  Tree.dict [("x", Tree.leaf (JLeaf.path "beta")),
             ("y", Tree.leaf (JLeaf.path "alpha"))]

theorem H0_wellformed :
    ∀ bs, (H0 bs).data.length = 64 ∧ ∀ c ∈ (H0 bs).data, c ∈ lowHexChars := by
  intro bs
  refine ⟨by simp [H0], ?_⟩
  intro c hc
  have : c = '0' := by simpa [H0, List.mem_replicate] using hc
  subst this
  decide

/-- Witness for C7 at a concrete tree, hash function and filesystem. -/
theorem C7_kwargs_sha256_lines_witness :
    splitLines (dump_hashes (compute_hashes H0 fs0 tC7))
        = (sortedItems (compute_hashes H0 fs0 tC7)).map hashLine ∧
    (∀ kv ∈ compute_hashes H0 fs0 tC7, kv.2 = H0 (fs0 kv.1)) ∧
    (∀ x, x ∈ (compute_hashes H0 fs0 tC7).map Prod.fst ↔ x ∈ pathLeaves tC7) ∧
    ((compute_hashes H0 fs0 tC7).map Prod.fst).Nodup ∧
    (sortedItems (compute_hashes H0 fs0 tC7)).Pairwise PairLe ∧
    ((∀ p ∈ pathLeaves tC7, fs0 p = fs0 p) →
      dump_hashes (compute_hashes H0 fs0 tC7)
        = dump_hashes (compute_hashes H0 fs0 tC7)) :=
  C7_kwargs_sha256_lines H0 fs0 fs0 tC7 H0_wellformed (by decide)

/-- A kwargs tree in which the same path occurs as two distinct leaves. -/
def tC7dup : Tree JLeaf :=
  Tree.list [Tree.leaf (JLeaf.path "a"), Tree.leaf (JLeaf.path "a")]

/-- Counterexample to C7 as frozen: with the same path occurring as two
leaves, the dumped file has one line, not one line per file path leaf. -/
theorem C7_one_line_per_leaf_counterexample :
    (pathLeaves tC7dup).length = 2 ∧
    (splitLines (dump_hashes (compute_hashes H0 fs0 tC7dup))).length = 1 := by
  decide


/-! ## Job call decision logic (Job.__call__, src/parman/job.py)

The on-disk state a Job invocation inspects and the effects it produces.
Parsed JSON documents are an abstract type `K` with decidable equality;
`jnull` stands for the JSON literal `null`. `expected` is the unstructured
localized kwargs (`unstructure(clerk.localize(kwargs, ...))`), `expHashes`
is `compute_hashes(expected_kwargs, workdir)`, and `finalize` abstracts
`structure` followed by `clerk.globalize` applied to the parsed
`result.json`. The template copy, `jobenv.sh` and the `clerk.push` calls
do not affect the decision logic and are not modelled. -/

/-- The files of the workdir that `Job.__call__` inspects. -/
structure Workdir (K : Type) where
  kwargsJson : Option K
  resultJson : Option K
  sha256File : Option (List (String × String))
deriving DecidableEq

/-- The behaviour of one script execution: its exit status, and the
`result.json` content it writes (none: it leaves the file as it was). -/
structure ScriptRun (K : Type) where
  ok : Bool
  output : Option K
deriving DecidableEq

/-- How one Job invocation ends. -/
inductive JobOutcome (K : Type) where
  | ok : K → JobOutcome K
  | errBrokenState : JobOutcome K
  | errKwargsChanged : JobOutcome K
  | errHashesChanged : JobOutcome K
  | errScript : JobOutcome K
  | errNoResult : JobOutcome K
deriving DecidableEq

/-- The observable effects of one Job invocation: its outcome, whether the
script was executed, and the final contents of the files it may write. -/
structure JobEffects (K : Type) where
  outcome : JobOutcome K
  ran : Bool
  fsKwargs : Option K
  fsKwargsNew : Option K
  fsSha256 : Option (List (String × String))
  fsSha256New : Option (List (String × String))
  fsResult : Option K
deriving DecidableEq

/-- The run plus result reading phases of `Job.__call__`: if `todo_job`,
copy the template, rewrite `kwargs.json` and `kwargs.sha256`, execute the
script (nonzero exit raises); finally read `result.json` or raise when it
is still absent. -/
def jobRun {K : Type} (finalize : K → K) (expected : K)
    (expHashes : List (String × String)) (run : ScriptRun K)
    (kw : Option K) (todo : Bool) (sha : List (String × String))
    (w : Workdir K) : JobEffects K :=
  if todo then
    let resultAfter := run.output <|> w.resultJson
    if run.ok then
      match resultAfter with
      | some r =>
        ⟨.ok (finalize r), true, some expected, none, some expHashes, none, some r⟩
      | none => ⟨.errNoResult, true, some expected, none, some expHashes, none, none⟩
    else ⟨.errScript, true, some expected, none, some expHashes, none, resultAfter⟩
  else
    match w.resultJson with
    | some r => ⟨.ok (finalize r), false, kw, none, some sha, none, some r⟩
    | none => ⟨.errNoResult, false, kw, none, some sha, none, none⟩

/-- The `kwargs.sha256` phase of `Job.__call__`: an existing fingerprint
file must match the freshly computed hashes, else `kwargs-new.sha256` is
written and the invocation raises; a missing fingerprint is recreated. -/
def jobFinish {K : Type} [DecidableEq K] (finalize : K → K) (expected : K)
    (expHashes : List (String × String)) (run : ScriptRun K)
    (kw : Option K) (todo : Bool) (w : Workdir K) : JobEffects K :=
  match w.sha256File with
  | some foundH =>
    if foundH ≠ expHashes then
      ⟨.errHashesChanged, false, kw, none, some foundH, some expHashes, w.resultJson⟩
    else jobRun finalize expected expHashes run kw todo foundH w
  | none => jobRun finalize expected expHashes run kw todo expHashes w

/-- `Job.__call__` decision logic, from the inspection of `kwargs.json`
onwards. A present `kwargs.json` equal to `null` is refreshed; one that
differs from the expected kwargs writes `kwargs-new.json` and raises; a
missing `kwargs.json` next to a present `result.json` is a broken state;
otherwise `todo_job` is set exactly as in the source. -/
def jobCall {K : Type} [DecidableEq K] (jnull : K) (finalize : K → K)
    (expected : K) (expHashes : List (String × String)) (canResume : Bool)
    (run : ScriptRun K) (w : Workdir K) : JobEffects K :=
  match w.kwargsJson with
  | some found =>
    if found = jnull then
      jobFinish finalize expected expHashes run (some expected)
        (w.resultJson.isNone && canResume) w
    else if found ≠ expected then
      ⟨.errKwargsChanged, false, some found, some expected, w.sha256File, none,
        w.resultJson⟩
    else
      jobFinish finalize expected expHashes run (some found)
        (w.resultJson.isNone && canResume) w
  | none =>
    match w.resultJson with
    | some r => ⟨.errBrokenState, false, none, none, w.sha256File, none, some r⟩
    | none => jobFinish finalize expected expHashes run none true w


/-- C5: a present `kwargs.json` holding non null JSON that differs from the
expected localized unstructured kwargs makes the invocation write
`kwargs-new.json` containing the new kwargs, raise `InputsChanged`
(`ValueError`), leave the original `kwargs.json` unchanged and not execute
the script. -/
theorem C5_kwargs_mismatch {K : Type} [DecidableEq K] (jnull : K)
    (finalize : K → K) (expected : K) (expHashes : List (String × String))
    (canResume : Bool) (run : ScriptRun K) (w : Workdir K) (found : K)
    (hkw : w.kwargsJson = some found) (hnn : found ≠ jnull)
    (hne : found ≠ expected) :
    jobCall jnull finalize expected expHashes canResume run w =
      ⟨.errKwargsChanged, false, some found, some expected, w.sha256File, none,
        w.resultJson⟩ := by
  simp [jobCall, hkw, hnn, hne]

/-- Witness for C5: a mismatching two valued world. -/
theorem C5_kwargs_mismatch_witness :
    jobCall 0 id 5 [] false ⟨true, some 9⟩ (⟨some 3, none, none⟩ : Workdir Nat) =
      ⟨.errKwargsChanged, false, some 3, some 5, none, none, none⟩ :=
  C5_kwargs_mismatch 0 id 5 [] false ⟨true, some 9⟩ ⟨some 3, none, none⟩ 3
    rfl (by decide) (by decide)

/-- C2 (amended): when `kwargs.json` equals the expected kwargs and the
fingerprint check passes, a present `result.json` means the script is not
executed and its structured content is returned; with `result.json` absent
the script is executed exactly when the job is resumable, and a job that is
not resumable does not run the script and the invocation fails with a
missing result error. -/
theorem C2_skip_if_complete {K : Type} [DecidableEq K] (jnull : K)
    (finalize : K → K) (expected : K) (expHashes : List (String × String))
    (canResume : Bool) (run : ScriptRun K) (w : Workdir K)
    (hkw : w.kwargsJson = some expected)
    (hsha : w.sha256File = none ∨ w.sha256File = some expHashes) :
    (∀ r, w.resultJson = some r →
      jobCall jnull finalize expected expHashes canResume run w =
        ⟨.ok (finalize r), false, some expected, none, some expHashes, none,
          some r⟩) ∧
    (w.resultJson = none → canResume = true →
      (jobCall jnull finalize expected expHashes canResume run w).ran = true) ∧
    (w.resultJson = none → canResume = false →
      jobCall jnull finalize expected expHashes canResume run w =
        ⟨.errNoResult, false, some expected, none, some expHashes, none,
          none⟩) := by
  have hcall : jobCall jnull finalize expected expHashes canResume run w
      = jobFinish finalize expected expHashes run (some expected)
          (w.resultJson.isNone && canResume) w := by
    by_cases hj : expected = jnull
    · simp [jobCall, hkw, hj]
    · simp [jobCall, hkw, hj]
  refine ⟨?_, ?_, ?_⟩
  · intro r hr
    rw [hcall]
    rcases hsha with hs | hs <;>
      simp [jobFinish, jobRun, hs, hr]
  · intro hr hc
    rw [hcall]
    obtain ⟨ok, out⟩ := run
    rcases hsha with hs | hs <;>
      cases ok <;> cases out <;>
        simp [jobFinish, jobRun, hs, hr, hc]
  · intro hr hc
    rw [hcall]
    rcases hsha with hs | hs <;>
      simp [jobFinish, jobRun, hs, hr, hc]

/-- Witness for C2 at a concrete world with an existing result. -/
theorem C2_skip_if_complete_witness :
    (∀ r, (⟨some 5, some 7, none⟩ : Workdir Nat).resultJson = some r →
      jobCall 0 id 5 [] false ⟨true, some 9⟩ ⟨some 5, some 7, none⟩ =
        ⟨.ok (id r), false, some 5, none, some [], none, some r⟩) ∧
    ((⟨some 5, some 7, none⟩ : Workdir Nat).resultJson = none → false = true →
      (jobCall 0 id 5 [] false ⟨true, some 9⟩
        (⟨some 5, some 7, none⟩ : Workdir Nat)).ran = true) ∧
    ((⟨some 5, some 7, none⟩ : Workdir Nat).resultJson = none → false = false →
      jobCall 0 id 5 [] false ⟨true, some 9⟩ ⟨some 5, some 7, none⟩ =
        ⟨.errNoResult, false, some 5, none, some [], none, none⟩) :=
  C2_skip_if_complete 0 id 5 [] false ⟨true, some 9⟩ ⟨some 5, some 7, none⟩
    rfl (Or.inl rfl)

/-- Counterexample to C2 as frozen: matching `kwargs.json`, absent
`result.json` and a non resumable job do not run the script (the claim
says the script is also run); the invocation raises instead. -/
theorem C2_not_resumable_counterexample :
    (jobCall 0 id 5 [] false ⟨true, some 9⟩
        (⟨some 5, none, none⟩ : Workdir Nat)).ran
        = false ∧
    (jobCall 0 id 5 [] false ⟨true, some 9⟩
        (⟨some 5, none, none⟩ : Workdir Nat)).outcome = JobOutcome.errNoResult := by
  decide


/-! ## Futures and the wait graph (src/parman/waitfuture.py)

Futures are named by natural numbers. Values are of an abstract type `V`
with a distinguished `vnull` for Python `None`; exceptions are identified
by an abstract type `E`. The two dicts `_before` and `_after` guarded by
the `WaitGraph` lock are maps to optional sets (lists); a missing key is
`none`. Dependency callbacks are modelled by the `depFinishes` step: a
future reaches a terminal state and `_handle_done_waiting` runs for it. -/

/-- The state of a `concurrent.futures.Future`. -/
inductive FState (V E : Type) where
  | pending : FState V E
  | running : FState V E
  | finishedValue : V → FState V E
  | finishedExc : E → FState V E
  | cancelled : FState V E
deriving DecidableEq, Repr

/-- `Future.done()`: in a terminal state. -/
def FState.done {V E : Type} : FState V E → Bool
  | .finishedValue _ => true
  | .finishedExc _ => true
  | .cancelled => true
  | _ => false

/-- The loop of `WaitFuture.set_state` over the recorded dependencies, with
the collected results accumulated in reverse. -/
def setStateGo {V E : Type} (vnull : V) (digest : Option (List V → V))
    (st : Nat → FState V E) : List Nat → List V → FState V E
  | [], acc =>
    .finishedValue (match digest with | none => vnull | some dg => dg acc.reverse)
  | f :: rest, acc =>
    match st f with
    | .cancelled => setStateGo vnull digest st rest (vnull :: acc)
    | .finishedExc e => .finishedExc e
    | .finishedValue v =>
      setStateGo vnull digest st rest (if digest.isSome then v :: acc else acc)
    | .pending => .pending
    | .running => .running

/-- `WaitFuture.set_state`: scan the recorded dependencies in submission
order; a cancelled dependency contributes null, a raised one propagates its
exception immediately, otherwise results are collected when a digest is
present, and finally the digest of the results (or null) becomes the value.
On a dependency that is not done, `Future.exception()` would block forever;
the model keeps the non terminal state in that unreachable case. -/
def setState {V E : Type} (vnull : V) (digest : Option (List V → V))
    (deps : List Nat) (st : Nat → FState V E) : FState V E :=
  setStateGo vnull digest st deps []

/-- The state of one `WaitGraph` together with the states of all futures.
`wfDeps` and `wfDigest` record the `_dependencies` tuple and `_digest` of
each wait future created by `submit`. -/
structure WaitWorld (V E : Type) where
  st : Nat → FState V E
  wfDeps : Nat → List Nat
  wfDigest : Nat → Option (List V → V)
  before : Nat → Option (List Nat)
  after : Nat → Option (List Nat)

/-- `set.add`: insert into a set, modelled as append if absent. -/
def addToSet (x : Nat) (l : List Nat) : List Nat :=
  if x ∈ l then l else l ++ [x]

/-- `WaitGraph._register`: store `before[wf] = set(deps)` and add `wf` to
`after[d]` for every distinct dependency. -/
def register {V E : Type} (w : WaitWorld V E) (wf : Nat) (deps : List Nat) :
    WaitWorld V E :=
  { w with
    before := Function.update w.before wf (some deps.dedup)
    after := fun d =>
      if d ∈ deps then some (addToSet wf ((w.after d).getD [])) else w.after d }

/-- One iteration of the `_unregister` loop: remove the finished future
from the `before` set of one waiting wait future; when the set empties,
drop it and mark the wait future done. The `before` entry is present in
every reachable state (Python would raise `KeyError` otherwise); a missing
entry is read as the empty set. -/
def unregStep (d : Nat) (acc : (Nat → Option (List Nat)) × List Nat)
    (wf : Nat) : (Nat → Option (List Nat)) × List Nat :=
  let b2 := ((acc.1 wf).getD []).erase d
  if b2.isEmpty then (Function.update acc.1 wf none, acc.2 ++ [wf])
  else (Function.update acc.1 wf (some b2), acc.2)

/-- `WaitGraph._unregister`: pop `after[d]` (absent means the callback
fired already and the call is a no-op), update the `before` sets of all
waiting wait futures, and return those whose dependencies all finished. -/
def unregister {V E : Type} (w : WaitWorld V E) (d : Nat) :
    WaitWorld V E × List Nat :=
  match w.after d with
  | none => (w, [])
  | some wfs =>
    let r := wfs.foldl (unregStep d) (w.before, [])
    ({ w with before := r.1, after := Function.update w.after d none }, r.2)

/-- `WaitGraph._handle_done_waiting`: settle every wait future whose last
outstanding dependency just finished, by calling `set_state` on it. The
callbacks a settled wait future itself triggers are modelled at the
scheduler layer. -/
def handleDoneWaiting {V E : Type} (vnull : V) (w : WaitWorld V E) (d : Nat) :
    WaitWorld V E :=
  let r := unregister w d
  { r.1 with
    st := r.2.foldl
      (fun st wf =>
        Function.update st wf (setState vnull (w.wfDigest wf) (w.wfDeps wf) st))
      r.1.st }

/-- A dependency future reaches the terminal outcome `o` and its done
callback `_handle_done_waiting` runs. -/
def depFinishes {V E : Type} (vnull : V) (w : WaitWorld V E) (d : Nat)
    (o : FState V E) : WaitWorld V E :=
  handleDoneWaiting vnull { w with st := Function.update w.st d o } d

/-- `WaitGraph.submit`: create the wait future (recording its dependency
tuple and digest); with no dependencies set its state immediately, else
register it. Installing the done callbacks is implicit in `depFinishes`. -/
def waitSubmit {V E : Type} (vnull : V) (w : WaitWorld V E) (wf : Nat)
    (deps : List Nat) (digest : Option (List V → V)) : WaitWorld V E :=
  let w1 := { w with
    wfDeps := Function.update w.wfDeps wf deps
    wfDigest := Function.update w.wfDigest wf digest }
  if deps.length = 0 then
    { w1 with st := Function.update w1.st wf (setState vnull digest deps w1.st) }
  else
    register w1 wf deps


/-- C8: `WaitGraph.submit` with no dependencies returns a wait future that
is already terminal on return, in the finished state holding `digest()`
when a digest is given and null otherwise, and registers nothing in the
internal maps. -/
theorem C8_empty_submit {V E : Type} (vnull : V) (w : WaitWorld V E) (wf : Nat)
    (digest : Option (List V → V)) :
    ((waitSubmit vnull w wf [] digest).st wf).done = true ∧
    (waitSubmit vnull w wf [] digest).st wf =
      .finishedValue (match digest with | none => vnull | some dg => dg []) ∧
    (waitSubmit vnull w wf [] digest).before = w.before ∧
    (waitSubmit vnull w wf [] digest).after = w.after := by
  refine ⟨?_, ?_, rfl, rfl⟩ <;>
    simp [waitSubmit, setState, setStateGo, FState.done]

/-- Value collection of `set_state` when every dependency holds a value or
was cancelled: the digest receives, in submission order, each value with
null substituted for cancelled dependencies. -/
theorem setStateGo_values {V E : Type} (vnull : V) (dg : List V → V)
    (st : Nat → FState V E) :
    ∀ (deps : List Nat) (acc : List V),
      (∀ d ∈ deps, (∃ v, st d = .finishedValue v) ∨ st d = .cancelled) →
      setStateGo vnull (some dg) st deps acc =
        .finishedValue (dg (acc.reverse ++ deps.map (fun d =>
          match st d with | .finishedValue v => v | _ => vnull))) := by
  intro deps
  induction deps with
  | nil => intro acc _; simp [setStateGo]
  | cons d rest ih =>
    intro acc h
    rcases h d (List.mem_cons_self d rest) with ⟨v, hv⟩ | hv <;>
      rw [setStateGo, hv] <;>
      simp only [Option.isSome_some, if_pos rfl] <;>
      rw [ih _ (fun x hx => h x (List.mem_cons_of_mem d hx))] <;>
      simp [hv]

/-- C4: a wait future with a digest whose dependencies all terminated
without raising resolves to the digest of the dependency results in
submission order, null standing in for every cancelled dependency, and in
particular it does not become cancelled. -/
theorem C4_cancelled_contributes_null {V E : Type} (vnull : V)
    (dg : List V → V) (deps : List Nat) (st : Nat → FState V E)
    (h : ∀ d ∈ deps, (∃ v, st d = .finishedValue v) ∨ st d = .cancelled) :
    setState vnull (some dg) deps st =
      .finishedValue (dg (deps.map (fun d =>
        match st d with | .finishedValue v => v | _ => vnull))) ∧
    setState vnull (some dg) deps st ≠ .cancelled := by
  have hv := setStateGo_values vnull dg st deps [] h
  rw [setState]
  simp only [List.reverse_nil, List.nil_append] at hv
  exact ⟨hv, by rw [hv]; exact fun hc => FState.noConfusion hc⟩

/-- A concrete dependency state map for the C4 witness. -/
def stC4 : Nat → FState Nat Nat := fun n =>
  if n = 1 then .finishedValue 5 else if n = 2 then .cancelled else .pending

/-- Witness for C4: one finished and one cancelled dependency digested into
a pair of their contributions, with null for the cancelled one. -/
theorem C4_cancelled_contributes_null_witness :
    setState 0 (some (fun l => l.foldl (· + ·) 100)) [1, 2] stC4 =
      .finishedValue ([1, 2].map (fun d =>
        match stC4 d with | .finishedValue v => v | _ => 0)
          |>.foldl (· + ·) 100) ∧
    setState 0 (some (fun l => l.foldl (· + ·) 100)) [1, 2] stC4 ≠ .cancelled :=
  C4_cancelled_contributes_null 0 (fun l => l.foldl (· + ·) 100) [1, 2] stC4
    (by
      intro d hd
      rcases List.mem_cons.mp hd with rfl | hd
      · exact Or.inl ⟨5, rfl⟩
      · rcases List.mem_cons.mp hd with rfl | hd
        · exact Or.inr rfl
        · cases hd)

/-- The first exception among the recorded dependencies, in submission
order. -/
def firstRaised {V E : Type} (st : Nat → FState V E) : List Nat → Option E
  | [] => none
  | d :: rest =>
    match st d with
    | .finishedExc e => some e
    | _ => firstRaised st rest

/-- When all dependencies are done and some raised, `set_state` propagates
the first exception in submission order. -/
theorem setState_firstRaised {V E : Type} (vnull : V)
    (digest : Option (List V → V)) (st : Nat → FState V E) :
    ∀ (deps : List Nat) (acc : List V) (e : E),
      (∀ d ∈ deps, (st d).done = true) → firstRaised st deps = some e →
      setStateGo vnull digest st deps acc = .finishedExc e := by
  intro deps
  induction deps with
  | nil => intro acc e _ hf; cases hf
  | cons d rest ih =>
    intro acc e hdone hf
    have hd := hdone d (List.mem_cons_self d rest)
    have hrest := fun x hx => hdone x (List.mem_cons_of_mem d hx)
    rw [setStateGo]
    rw [firstRaised] at hf
    cases hst : st d with
    | pending => rw [hst] at hd; simp [FState.done] at hd
    | running => rw [hst] at hd; simp [FState.done] at hd
    | cancelled => rw [hst] at hf; exact ih _ e hrest hf
    | finishedValue v => rw [hst] at hf; exact ih _ e hrest hf
    | finishedExc e0 => rw [hst] at hf; exact (Option.some.inj hf) ▸ rfl

/-- A fold of `unregStep` never empties the entry of a wait future that
still has another outstanding dependency, and never marks it done. -/
theorem unregFold_not_done (d wf : Nat) :
    ∀ (wfs : List Nat) (bmap : Nat → Option (List Nat)) (acc : List Nat)
      (B : List Nat),
      bmap wf = some B → B.Nodup → B.erase d ≠ [] → wf ∉ acc →
      (∃ B2, (wfs.foldl (unregStep d) (bmap, acc)).1 wf = some B2) ∧
        wf ∉ (wfs.foldl (unregStep d) (bmap, acc)).2 := by
  intro wfs
  induction wfs with
  | nil => intro bmap acc B hB _ _ hacc; exact ⟨⟨B, hB⟩, hacc⟩
  | cons wf0 rest ih =>
    intro bmap acc B hB hnd hne hacc
    by_cases h0 : wf0 = wf
    · subst h0
      have hb2 : ¬ ((((bmap wf0).getD []).erase d).isEmpty = true) := by
        rw [hB]
        simpa [List.isEmpty_iff] using hne
      simp only [List.foldl_cons, unregStep, if_neg hb2]
      refine ih _ acc (B.erase d) ?_ (hnd.erase d) ?_ hacc
      · simp [Function.update_same, hB]
      · have hdn : d ∉ B.erase d := fun hmem =>
          (List.Nodup.mem_erase_iff hnd).mp hmem |>.1 rfl
        rw [List.erase_of_not_mem hdn]
        exact hne
    · simp only [List.foldl_cons, unregStep]
      by_cases hemp : ((((bmap wf0).getD []).erase d).isEmpty = true)
      · rw [if_pos hemp]
        refine ih _ _ B ?_ hnd hne ?_
        · rw [Function.update_noteq (fun hh => h0 hh.symm)]
          exact hB
        · simpa using ⟨hacc, fun hh => h0 hh.symm⟩
      · rw [if_neg hemp]
        refine ih _ _ B ?_ hnd hne hacc
        rw [Function.update_noteq (fun hh => h0 hh.symm)]
        exact hB

/-- The settle fold only touches the wait futures in the done list. -/
theorem settleFold_not_mem {V E : Type} (g : (Nat → FState V E) → Nat → FState V E)
    (wf : Nat) :
    ∀ (done : List Nat) (st0 : Nat → FState V E), wf ∉ done →
      (done.foldl (fun st wf2 => Function.update st wf2 (g st wf2)) st0) wf
        = st0 wf := by
  intro done
  induction done with
  | nil => intro st0 _; rfl
  | cons w0 rest ih =>
    intro st0 hmem
    simp only [List.foldl_cons]
    rw [ih _ (fun hh => hmem (List.mem_cons_of_mem w0 hh)),
      Function.update_noteq
        (fun hh => hmem (by rw [hh]; exact List.mem_cons_self w0 rest))]

/-- A dependency event leaves a wait future untouched while it still has
another outstanding dependency. -/
theorem depFinishes_not_last {V E : Type} (vnull : V) (w : WaitWorld V E)
    (d wf : Nat) (o : FState V E) (B : List Nat)
    (hne : wf ≠ d) (hbf : w.before wf = some B) (hnd : B.Nodup)
    (hnemp : B.erase d ≠ []) :
    (depFinishes vnull w d o).st wf = w.st wf := by
  rw [depFinishes, handleDoneWaiting, unregister]
  cases haf : ({ w with st := Function.update w.st d o } : WaitWorld V E).after d with
  | none =>
    simp only [List.foldl_nil]
    exact Function.update_noteq hne _ _
  | some wfs =>
    have hspec := unregFold_not_done d wf wfs w.before [] B hbf hnd hnemp
      (List.not_mem_nil wf)
    simp only []
    rw [settleFold_not_mem _ wf _ _ hspec.2]
    exact Function.update_noteq hne _ _

/-- The last outstanding dependency of the only waiting wait future
settles it through `set_state` over its recorded dependency tuple. -/
theorem depFinishes_last_single {V E : Type} (vnull : V) (w : WaitWorld V E)
    (d wf : Nat) (o : FState V E) (B : List Nat)
    (_hne : wf ≠ d) (haf : w.after d = some [wf]) (hbf : w.before wf = some B)
    (hemp : B.erase d = []) :
    (depFinishes vnull w d o).st wf
      = setState vnull (w.wfDigest wf) (w.wfDeps wf)
          (Function.update w.st d o) := by
  rw [depFinishes, handleDoneWaiting, unregister]
  have haf2 : ({ w with st := Function.update w.st d o } : WaitWorld V E).after d
      = some [wf] := haf
  rw [haf2]
  have hemp2 : ((((w.before wf).getD []).erase d).isEmpty = true) := by
    rw [hbf]
    simpa [List.isEmpty_iff] using hemp
  simp only [List.foldl_cons, List.foldl_nil, unregStep, if_pos hemp2]
  simp [Function.update_same]

/-- C1 (amended): a wait future whose dependency raises does not transition
at that moment if other dependencies are outstanding; it transitions when
its last outstanding dependency finishes, settling through `set_state`,
which propagates the first exception found when scanning the recorded
dependencies in submission order. -/
theorem C1_first_exception_on_last_dep {V E : Type} (vnull : V) :
    (∀ (w : WaitWorld V E) (d wf : Nat) (o : FState V E) (B : List Nat),
      wf ≠ d → w.before wf = some B → B.Nodup → B.erase d ≠ [] →
      (depFinishes vnull w d o).st wf = w.st wf) ∧
    (∀ (w : WaitWorld V E) (d wf : Nat) (o : FState V E) (B : List Nat),
      wf ≠ d → w.after d = some [wf] → w.before wf = some B → B.erase d = [] →
      (depFinishes vnull w d o).st wf
        = setState vnull (w.wfDigest wf) (w.wfDeps wf)
            (Function.update w.st d o)) ∧
    (∀ (digest : Option (List V → V)) (deps : List Nat) (st : Nat → FState V E)
      (e : E),
      (∀ d2 ∈ deps, (st d2).done = true) → firstRaised st deps = some e →
      setState vnull digest deps st = .finishedExc e) :=
  ⟨fun w d wf o B h1 h2 h3 h4 => depFinishes_not_last vnull w d wf o B h1 h2 h3 h4,
   fun w d wf o B h1 h2 h3 h4 => depFinishes_last_single vnull w d wf o B h1 h2 h3 h4,
   fun digest deps st e h1 h2 => setState_firstRaised vnull digest st deps [] e h1 h2⟩

/-- The empty wait world: all futures pending, nothing registered. -/
def W0 : WaitWorld Nat Nat :=
  ⟨fun _ => .pending, fun _ => [], fun _ => none, fun _ => none, fun _ => none⟩

/-- Wait future 0 with dependencies 1 and 2 and no digest. -/
def W1 : WaitWorld Nat Nat := waitSubmit 0 W0 0 [1, 2] none

/-- Counterexample to C1 as frozen: dependency 1 finishes with an exception
while dependency 2 is still pending, and the wait future stays pending
instead of transitioning to the exception state at once. -/
theorem C1_as_soon_as_counterexample :
    (depFinishes 0 W1 1 (.finishedExc 7)).st 1 = .finishedExc 7 ∧
    (depFinishes 0 W1 1 (.finishedExc 7)).st 0 = .pending := by
  decide

/-- Dependency states for the third part of the C1 witness: dependency 1
raised, dependency 2 was cancelled. -/
def st3 : Nat → FState Nat Nat := fun n =>
  if n = 1 then .finishedExc 7 else .cancelled

/-- Witness for C1: in the same concrete world, the event on dependency 1
leaves the wait future untouched (part one); a one dependency world
settles on its last dependency with the first exception in order (parts
two and three). -/
theorem C1_first_exception_on_last_dep_witness :
    (depFinishes 0 W1 1 (.finishedExc 7)).st 0 = W1.st 0 ∧
    (depFinishes 0 (waitSubmit 0 W0 0 [1] none) 1 (.finishedExc 7)).st 0
      = setState 0 ((waitSubmit 0 W0 0 [1] none).wfDigest 0)
          ((waitSubmit 0 W0 0 [1] none).wfDeps 0)
          (Function.update (waitSubmit 0 W0 0 [1] none).st 1 (.finishedExc 7)) ∧
    setState 0 (none : Option (List Nat → Nat)) [1, 2] st3
      = .finishedExc 7 := by
  obtain ⟨h1, h2, h3⟩ := @C1_first_exception_on_last_dep Nat Nat 0
  refine ⟨h1 W1 1 0 (.finishedExc 7) [1, 2] (by decide) (by decide) (by decide)
      (by decide), ?_, ?_⟩
  · exact h2 (waitSubmit 0 W0 0 [1] none) 1 0 (.finishedExc 7) [1] (by decide)
      (by decide) (by decide) (by decide)
  · exact h3 none [1, 2] st3 7 (by decide) (by decide)


/-! ## Scheduler (src/parman/scheduler.py)

The scheduler is modelled as a small step transition system over the wait
graph plus the scheduler maps. A `SchedEntry` stands for a
`ScheduledFuture` together with the dependency collection recorded for it
(the `args`/`kwargs` passed to `user_submit` carry them in the runner
usage). The `submitted` list is the history of `user_submit` invocations
performed by the submit loop. Cancellation of scheduled futures by the
user and the work future stage are outside this model: they cannot cause a
submission, only prevent one. -/

/-- A scheduled future: its identity and its recorded dependencies. -/
structure SchedEntry where
  sfId : Nat
  deps : List Nat
deriving DecidableEq, Repr

/-- The combined state of one `Scheduler` and its `WaitGraph`. -/
structure SchedState (V E : Type) where
  wait : WaitWorld V E
  waitMap : Nat → Option SchedEntry
  todo : List SchedEntry
  submitted : List SchedEntry

/-- `Scheduler._handle_wait_done`: pop the scheduled future of the settled
wait future; a cancelled wait future cancels it, an exception is copied
onto it, otherwise it goes on the todo queue for the submit loop. A
missing map entry means the callback already ran. The wait future is done
whenever this runs (`exception()` would block otherwise), so the non
terminal cases are unreachable and queue nothing. -/
def handleWaitDone {V E : Type} (s : SchedState V E) (wfId : Nat) :
    SchedState V E :=
  match s.waitMap wfId with
  | none => s
  | some ent =>
    let s2 := { s with waitMap := Function.update s.waitMap wfId none }
    match s.wait.st wfId with
    | .finishedValue _ => { s2 with todo := s2.todo ++ [ent] }
    | _ => s2

/-- `Scheduler.submit`: create the wait future over the dependencies (no
digest), install the `waitMap` entry, then register the done callback on
the wait future; when the wait future was born terminal (no dependencies)
the callback fires immediately. -/
def schedSubmitStep {V E : Type} (vnull : V) (s : SchedState V E)
    (ent : SchedEntry) (wfId : Nat) : SchedState V E :=
  let w2 := waitSubmit vnull s.wait wfId ent.deps none
  let s2 := { s with wait := w2, waitMap := Function.update s.waitMap wfId (some ent) }
  if (w2.st wfId).done then handleWaitDone s2 wfId else s2

/-- Settle one wait future of the done list of `_unregister` and run its
done callback `Scheduler._handle_wait_done`. -/
def settleOne {V E : Type} (vnull : V) (s : SchedState V E) (wf : Nat) :
    SchedState V E :=
  let s2 := { s with wait := { s.wait with
    st := Function.update s.wait.st wf
      (setState vnull (s.wait.wfDigest wf) (s.wait.wfDeps wf) s.wait.st) } }
  handleWaitDone s2 wf

/-- A dependency future reaches the terminal outcome `o`: the wait graph
callback `_handle_done_waiting` runs, and every wait future it settles
fires its own done callback into the scheduler. -/
def depDoneStep {V E : Type} (vnull : V) (s : SchedState V E) (d : Nat)
    (o : FState V E) : SchedState V E :=
  let r := unregister { s.wait with st := Function.update s.wait.st d o } d
  r.2.foldl (settleOne vnull) { s with wait := r.1 }

/-- One iteration of `_submit_loop`: dequeue a scheduled future and hand it
to `user_submit`; the history records the invocation. -/
def loopStep {V E : Type} (s : SchedState V E) : SchedState V E :=
  match s.todo with
  | [] => s
  | ent :: rest => { s with todo := rest, submitted := s.submitted ++ [ent] }

/-- The reachable states of a scheduler: starting from an empty graph with
arbitrary external future states, under submissions of fresh scheduled
futures, terminal transitions of dependency futures, and submit loop
iterations. -/
inductive SchedReach {V E : Type} (vnull : V) : SchedState V E → Prop where
  | init (st0 : Nat → FState V E) :
      SchedReach vnull
        ⟨⟨st0, fun _ => [], fun _ => none, fun _ => none, fun _ => none⟩,
          fun _ => none, [], []⟩
  | submit {s : SchedState V E} (ent : SchedEntry) (wfId : Nat) :
      SchedReach vnull s →
      s.wait.before wfId = none →
      (∀ d2 wfs, s.wait.after d2 = some wfs → wfId ∉ wfs) →
      s.waitMap wfId = none →
      (s.wait.st wfId).done = false →
      SchedReach vnull (schedSubmitStep vnull s ent wfId)
  | depDone {s : SchedState V E} (d : Nat) (o : FState V E) :
      SchedReach vnull s →
      o.done = true →
      SchedReach vnull (depDoneStep vnull s d o)
  | loop {s : SchedState V E} :
      SchedReach vnull s →
      SchedReach vnull (loopStep s)

/-- The invariant pack of the scheduler proof: queued or submitted entries
have all dependencies done; outstanding `before` sets are duplicate free
and their complement within the recorded dependencies is done; `waitMap`
entries agree with the recorded dependency tuples; and `after` sets are
duplicate free sets of wait futures whose `before` entry contains the
dependency. -/
def SchedInv {V E : Type} (s : SchedState V E) : Prop :=
  (∀ ent, (ent ∈ s.todo ∨ ent ∈ s.submitted) →
    ∀ d2 ∈ ent.deps, (s.wait.st d2).done = true) ∧
  (∀ wf B, s.wait.before wf = some B →
    B.Nodup ∧ ∀ d2 ∈ s.wait.wfDeps wf, d2 ∉ B → (s.wait.st d2).done = true) ∧
  (∀ wf ent, s.waitMap wf = some ent → ent.deps = s.wait.wfDeps wf) ∧
  (∀ d wfs, s.wait.after d = some wfs → wfs.Nodup ∧
    ∀ wf ∈ wfs, ∃ B, s.wait.before wf = some B ∧ d ∈ B ∧ B.Nodup)


/-- `set_state` on dependencies that are all done yields a terminal state. -/
theorem setStateGo_done {V E : Type} (vnull : V) (digest : Option (List V → V))
    (st : Nat → FState V E) :
    ∀ (deps : List Nat) (acc : List V),
      (∀ d ∈ deps, (st d).done = true) →
      ((setStateGo vnull digest st deps acc).done = true) := by
  intro deps
  induction deps with
  | nil => intro acc _; simp [setStateGo, FState.done]
  | cons d rest ih =>
    intro acc hdone
    have hd := hdone d (List.mem_cons_self d rest)
    have hrest := fun x hx => hdone x (List.mem_cons_of_mem d hx)
    rw [setStateGo]
    cases hst : st d with
    | pending => rw [hst] at hd; simp [FState.done] at hd
    | running => rw [hst] at hd; simp [FState.done] at hd
    | cancelled => exact ih _ hrest
    | finishedValue v => exact ih _ hrest
    | finishedExc e => simp [FState.done]

theorem setState_done {V E : Type} (vnull : V) (digest : Option (List V → V))
    (deps : List Nat) (st : Nat → FState V E)
    (h : ∀ d ∈ deps, (st d).done = true) :
    (setState vnull digest deps st).done = true :=
  setStateGo_done vnull digest st deps [] h

/-- Full characterization of the `_unregister` fold over a duplicate free
waiter set: untouched wait futures keep their entry and done status;
processed ones have the finished dependency erased, the entry dropped and
the wait future marked done exactly when the set empties. -/
theorem unregFold_spec (d : Nat) :
    ∀ (wfs : List Nat), wfs.Nodup →
    ∀ (bmap : Nat → Option (List Nat)) (acc : List Nat),
      (∀ wf, wf ∉ wfs →
        (wfs.foldl (unregStep d) (bmap, acc)).1 wf = bmap wf ∧
        (wf ∈ (wfs.foldl (unregStep d) (bmap, acc)).2 ↔ wf ∈ acc)) ∧
      (∀ wf, wf ∈ wfs →
        ((wfs.foldl (unregStep d) (bmap, acc)).1 wf =
          if (((bmap wf).getD []).erase d).isEmpty then none
          else some (((bmap wf).getD []).erase d)) ∧
        (wf ∈ (wfs.foldl (unregStep d) (bmap, acc)).2 ↔
          wf ∈ acc ∨ (((bmap wf).getD []).erase d).isEmpty = true)) := by
  intro wfs
  induction wfs with
  | nil =>
    intro _ bmap acc
    exact ⟨fun wf _ => ⟨rfl, Iff.rfl⟩, fun wf h => absurd h (List.not_mem_nil wf)⟩
  | cons wf0 rest ih =>
    intro hnd bmap acc
    rw [List.nodup_cons] at hnd
    obtain ⟨h0, hndr⟩ := hnd
    simp only [List.foldl_cons]
    by_cases hemp : (((bmap wf0).getD []).erase d).isEmpty = true
    · have hstep : unregStep d (bmap, acc) wf0
          = (Function.update bmap wf0 none, acc ++ [wf0]) := by
        rw [unregStep, if_pos hemp]
      rw [hstep]
      obtain ⟨ihA, ihB⟩ := ih hndr (Function.update bmap wf0 none) (acc ++ [wf0])
      constructor
      · intro wf hwf
        have hne : wf ≠ wf0 := fun hh => hwf (hh ▸ List.mem_cons_self wf0 rest)
        have hr : wf ∉ rest := fun hh => hwf (List.mem_cons_of_mem wf0 hh)
        obtain ⟨hA1, hA2⟩ := ihA wf hr
        rw [Function.update_noteq hne] at hA1
        refine ⟨hA1, hA2.trans ?_⟩
        simp [List.mem_append, hne]
      · intro wf hwf
        rcases List.mem_cons.mp hwf with rfl | hwf
        · obtain ⟨hA1, hA2⟩ := ihA wf h0
          rw [Function.update_same] at hA1
          rw [if_pos hemp]
          refine ⟨hA1, hA2.trans ?_⟩
          simp [List.mem_append, hemp]
        · have hne : wf ≠ wf0 := fun hh => h0 (hh ▸ hwf)
          obtain ⟨hB1, hB2⟩ := ihB wf hwf
          rw [Function.update_noteq hne] at hB1 hB2
          refine ⟨hB1, hB2.trans ?_⟩
          simp [List.mem_append, hne]
    · have hstep : unregStep d (bmap, acc) wf0
          = (Function.update bmap wf0 (some (((bmap wf0).getD []).erase d)), acc) := by
        rw [unregStep, if_neg hemp]
      rw [hstep]
      obtain ⟨ihA, ihB⟩ := ih hndr
        (Function.update bmap wf0 (some (((bmap wf0).getD []).erase d))) acc
      constructor
      · intro wf hwf
        have hne : wf ≠ wf0 := fun hh => hwf (hh ▸ List.mem_cons_self wf0 rest)
        have hr : wf ∉ rest := fun hh => hwf (List.mem_cons_of_mem wf0 hh)
        obtain ⟨hA1, hA2⟩ := ihA wf hr
        rw [Function.update_noteq hne] at hA1
        exact ⟨hA1, hA2⟩
      · intro wf hwf
        rcases List.mem_cons.mp hwf with rfl | hwf
        · obtain ⟨hA1, hA2⟩ := ihA wf h0
          rw [Function.update_same] at hA1
          rw [if_neg hemp]
          exact ⟨hA1, hA2.trans (by simp [hemp])⟩
        · have hne : wf ≠ wf0 := fun hh => h0 (hh ▸ hwf)
          obtain ⟨hB1, hB2⟩ := ihB wf hwf
          rw [Function.update_noteq hne] at hB1 hB2
          exact ⟨hB1, hB2⟩


/-- `_handle_wait_done` preserves the invariant pack when the popped entry
has all its dependencies done; it never touches the wait graph or the
submission history. -/
theorem handleWaitDone_inv {V E : Type} (s : SchedState V E) (wf : Nat)
    (hI : SchedInv s)
    (hq : ∀ ent, s.waitMap wf = some ent →
      ∀ d2 ∈ ent.deps, (s.wait.st d2).done = true) :
    SchedInv (handleWaitDone s wf) ∧ (handleWaitDone s wf).wait = s.wait ∧
    (handleWaitDone s wf).submitted = s.submitted := by
  obtain ⟨hI1, hI2, hI3, hI5⟩ := hI
  rw [handleWaitDone]
  cases hm : s.waitMap wf with
  | none => exact ⟨⟨hI1, hI2, hI3, hI5⟩, rfl, rfl⟩
  | some ent =>
    have hI3' : ∀ wf2 ent2, Function.update s.waitMap wf none wf2 = some ent2 →
        ent2.deps = s.wait.wfDeps wf2 := by
      intro wf2 ent2 h2
      by_cases hww : wf2 = wf
      · subst hww; rw [Function.update_same] at h2; cases h2
      · rw [Function.update_noteq hww] at h2; exact hI3 wf2 ent2 h2
    cases hst : s.wait.st wf with
    | finishedValue val =>
      refine ⟨⟨?_, hI2, hI3', hI5⟩, rfl, rfl⟩
      intro ent2 hent2 d2 hd2
      rcases hent2 with hent2 | hent2
      · rcases List.mem_append.mp hent2 with h | h
        · exact hI1 ent2 (Or.inl h) d2 hd2
        · rw [List.mem_singleton] at h
          subst h
          exact hq _ hm d2 hd2
      · exact hI1 ent2 (Or.inr hent2) d2 hd2
    | pending => exact ⟨⟨hI1, hI2, hI3', hI5⟩, rfl, rfl⟩
    | running => exact ⟨⟨hI1, hI2, hI3', hI5⟩, rfl, rfl⟩
    | finishedExc e => exact ⟨⟨hI1, hI2, hI3', hI5⟩, rfl, rfl⟩
    | cancelled => exact ⟨⟨hI1, hI2, hI3', hI5⟩, rfl, rfl⟩

/-- Settling one ready wait future preserves the invariant pack, makes no
done future undone, and leaves the recorded dependency tuples and the
submission history unchanged. -/
theorem settleOne_inv {V E : Type} (vnull : V) (s : SchedState V E) (wf : Nat)
    (hI : SchedInv s)
    (hdeps : ∀ d2 ∈ s.wait.wfDeps wf, (s.wait.st d2).done = true) :
    SchedInv (settleOne vnull s wf) ∧
    (∀ x, (s.wait.st x).done = true →
      ((settleOne vnull s wf).wait.st x).done = true) ∧
    (settleOne vnull s wf).wait.wfDeps = s.wait.wfDeps ∧
    (settleOne vnull s wf).submitted = s.submitted := by
  obtain ⟨hI1, hI2, hI3, hI5⟩ := hI
  have hvd : (setState vnull (s.wait.wfDigest wf) (s.wait.wfDeps wf)
      s.wait.st).done = true := setState_done vnull _ _ _ hdeps
  have hmono : ∀ x, (s.wait.st x).done = true →
      ((Function.update s.wait.st wf (setState vnull (s.wait.wfDigest wf)
        (s.wait.wfDeps wf) s.wait.st)) x).done = true := by
    intro x hx
    by_cases hxw : x = wf
    · subst hxw; rw [Function.update_same]; exact hvd
    · rw [Function.update_noteq hxw]; exact hx
  have hI2' : SchedInv
      ({ s with wait := { s.wait with
        st := Function.update s.wait.st wf (setState vnull (s.wait.wfDigest wf)
          (s.wait.wfDeps wf) s.wait.st) } } : SchedState V E) := by
    refine ⟨?_, ?_, hI3, hI5⟩
    · intro ent hent d2 hd2
      exact hmono d2 (hI1 ent hent d2 hd2)
    · intro wf2 B hB
      obtain ⟨hn, hd⟩ := hI2 wf2 B hB
      exact ⟨hn, fun d2 h2 h3 => hmono d2 (hd d2 h2 h3)⟩
  have hq : ∀ ent, s.waitMap wf = some ent →
      ∀ d2 ∈ ent.deps,
        ((Function.update s.wait.st wf (setState vnull (s.wait.wfDigest wf)
          (s.wait.wfDeps wf) s.wait.st)) d2).done = true := by
    intro ent hm d2 hd2
    have := hI3 wf ent hm
    exact hmono d2 (hdeps d2 (this ▸ hd2))
  have hh := handleWaitDone_inv
    ({ s with wait := { s.wait with
      st := Function.update s.wait.st wf (setState vnull (s.wait.wfDigest wf)
        (s.wait.wfDeps wf) s.wait.st) } } : SchedState V E) wf hI2' hq
  rw [settleOne]
  refine ⟨hh.1, ?_, ?_, hh.2.2⟩
  · intro x hx
    rw [hh.2.1]
    exact hmono x hx
  · rw [hh.2.1]

/-- The settle fold over the ready list preserves the invariant pack. -/
theorem settleFold_inv {V E : Type} (vnull : V) :
    ∀ (done : List Nat) (s : SchedState V E),
      SchedInv s →
      (∀ wf ∈ done, ∀ d2 ∈ s.wait.wfDeps wf, (s.wait.st d2).done = true) →
      SchedInv (done.foldl (settleOne vnull) s) := by
  intro done
  induction done with
  | nil => intro s hI _; exact hI
  | cons wf rest ih =>
    intro s hI hd
    obtain ⟨h1, h2, h3, h4⟩ :=
      settleOne_inv vnull s wf hI (hd wf (List.mem_cons_self wf rest))
    simp only [List.foldl_cons]
    refine ih (settleOne vnull s wf) h1 ?_
    intro wf2 hwf2 d2 hd2
    rw [h3] at hd2
    exact h2 d2 (hd wf2 (List.mem_cons_of_mem wf hwf2) d2 hd2)


/-- A terminal transition of a dependency future, with the wait graph
callback and the scheduler callbacks it triggers, preserves the invariant
pack. -/
theorem depDone_inv {V E : Type} (vnull : V) (s : SchedState V E) (d : Nat)
    (o : FState V E) (ho : o.done = true) (hI : SchedInv s) :
    SchedInv (depDoneStep vnull s d o) := by
  obtain ⟨hI1, hI2, hI3, hI5⟩ := hI
  have hmono : ∀ x, (s.wait.st x).done = true →
      ((Function.update s.wait.st d o) x).done = true := by
    intro x hx
    by_cases hxd : x = d
    · subst hxd; rw [Function.update_same]; exact ho
    · rw [Function.update_noteq hxd]; exact hx
  rw [depDoneStep, unregister]
  cases haf : ({ s.wait with st := Function.update s.wait.st d o }
      : WaitWorld V E).after d with
  | none =>
    simp only [List.foldl_nil]
    refine ⟨?_, ?_, hI3, hI5⟩
    · intro ent hent d2 hd2
      exact hmono d2 (hI1 ent hent d2 hd2)
    · intro wf B hB
      obtain ⟨hn, hd⟩ := hI2 wf B hB
      exact ⟨hn, fun d2 h2 h3 => hmono d2 (hd d2 h2 h3)⟩
  | some wfs =>
    have haf0 : s.wait.after d = some wfs := haf
    obtain ⟨hnd, hmem⟩ := hI5 d wfs haf0
    obtain ⟨specA, specB⟩ := unregFold_spec d wfs hnd s.wait.before []
    simp only
      [show ({ s.wait with st := Function.update s.wait.st d o }
        : WaitWorld V E).before = s.wait.before from rfl,
       show ({ s.wait with st := Function.update s.wait.st d o }
        : WaitWorld V E).after = s.wait.after from rfl,
       show ({ s.wait with st := Function.update s.wait.st d o }
        : WaitWorld V E).st = Function.update s.wait.st d o from rfl,
       show ({ s.wait with st := Function.update s.wait.st d o }
        : WaitWorld V E).wfDeps = s.wait.wfDeps from rfl,
       show ({ s.wait with st := Function.update s.wait.st d o }
        : WaitWorld V E).wfDigest = s.wait.wfDigest from rfl]
    -- the state after _unregister, before the settle fold
    refine settleFold_inv vnull _ _ ⟨?_, ?_, ?_, ?_⟩ ?_
    all_goals dsimp only []
    · -- queued and submitted entries keep all dependencies done
      intro ent hent d2 hd2
      exact hmono d2 (hI1 ent hent d2 hd2)
    · -- outstanding before sets
      intro wf B2 hB2
      by_cases hwfs : wf ∈ wfs
      · obtain ⟨hB1, _⟩ := specB wf hwfs
        rw [hB1] at hB2
        obtain ⟨B, hB, hdB, hBnd⟩ := hmem wf hwfs
        rw [hB] at hB2
        by_cases hemp : ((B : List Nat).erase d).isEmpty = true
        · rw [if_pos (by simpa using hemp)] at hB2; cases hB2
        · rw [if_neg (by simpa using hemp)] at hB2
          have hB2' : B2 = B.erase d := (Option.some.inj hB2).symm
          subst hB2'
          refine ⟨hBnd.erase d, ?_⟩
          intro d2 h2 h3
          by_cases hdd : d2 = d
          · subst hdd; rw [Function.update_same]; exact ho
          · have : d2 ∉ B := fun hmem2 =>
              h3 ((List.mem_erase_of_ne hdd).mpr hmem2)
            obtain ⟨_, hdon⟩ := hI2 wf B hB
            exact hmono d2 (hdon d2 h2 this)
      · obtain ⟨hA1, _⟩ := specA wf hwfs
        rw [hA1] at hB2
        obtain ⟨hn, hdon⟩ := hI2 wf B2 hB2
        exact ⟨hn, fun d2 h2 h3 => hmono d2 (hdon d2 h2 h3)⟩
    · -- the waitMap entries still agree with the recorded tuples
      exact hI3
    · -- after sets
      intro d2 wfs2 h2
      by_cases hdd : d2 = d
      · subst hdd
        rw [Function.update_same] at h2
        cases h2
      · rw [Function.update_noteq hdd] at h2
        obtain ⟨hn2, hmem2⟩ := hI5 d2 wfs2 h2
        refine ⟨hn2, ?_⟩
        intro wf hwf
        obtain ⟨B, hB, hdB, hBnd⟩ := hmem2 wf hwf
        by_cases hwfs : wf ∈ wfs
        · obtain ⟨hB1, _⟩ := specB wf hwfs
          have hgd : (s.wait.before wf).getD [] = B := by rw [hB]; rfl
          rw [hgd] at hB1
          have hne : ¬ ((B.erase d).isEmpty = true) := by
            rw [List.isEmpty_iff]
            intro hempty
            have : d2 ∈ B.erase d := (List.mem_erase_of_ne hdd).mpr hdB
            rw [hempty] at this
            cases this
          rw [if_neg hne] at hB1
          exact ⟨B.erase d, hB1, (List.mem_erase_of_ne hdd).mpr hdB,
            hBnd.erase d⟩
        · obtain ⟨hA1, _⟩ := specA wf hwfs
          exact ⟨B, hA1.trans hB, hdB, hBnd⟩
    · -- ready wait futures have every recorded dependency done
      intro wf hwf d2 hd2
      have hwfs : wf ∈ wfs := by
        by_contra hnot
        obtain ⟨_, hA2⟩ := specA wf hnot
        rw [hA2] at hwf
        cases hwf
      obtain ⟨_, hB2⟩ := specB wf hwfs
      rw [hB2] at hwf
      obtain ⟨B, hB, hdB, hBnd⟩ := hmem wf hwfs
      have hgd : (s.wait.before wf).getD [] = B := by rw [hB]; rfl
      rw [hgd] at hwf
      have hemp : (B.erase d).isEmpty = true := by
        rcases hwf with hwf | hwf
        · cases hwf
        · exact hwf
      have hall : ∀ x ∈ B, x = d := by
        intro x hx
        by_contra hxd
        have : x ∈ B.erase d := (List.mem_erase_of_ne hxd).mpr hx
        rw [List.isEmpty_iff.mp hemp] at this
        cases this
      obtain ⟨_, hdon⟩ := hI2 wf B hB
      by_cases hdd : d2 ∈ B
      · have : d2 = d := hall d2 hdd
        subst this
        rw [Function.update_same]
        exact ho
      · exact hmono d2 (hdon d2 hd2 hdd)


theorem mem_addToSet {x y : Nat} {l : List Nat} :
    y ∈ addToSet x l ↔ y ∈ l ∨ y = x := by
  rw [addToSet]
  by_cases h : x ∈ l
  · rw [if_pos h]
    constructor
    · exact Or.inl
    · rintro (hy | rfl)
      · exact hy
      · exact h
  · rw [if_neg h]
    simp

theorem addToSet_nodup {x : Nat} {l : List Nat} (h : l.Nodup) :
    (addToSet x l).Nodup := by
  rw [addToSet]
  by_cases hx : x ∈ l
  · rw [if_pos hx]; exact h
  · rw [if_neg hx]
    rw [List.nodup_append]
    exact ⟨h, List.nodup_singleton x, by simpa using hx⟩

/-- `Scheduler.submit` of a fresh scheduled future preserves the invariant
pack. -/
theorem schedSubmit_inv {V E : Type} (vnull : V) (s : SchedState V E)
    (ent : SchedEntry) (wfId : Nat) (hI : SchedInv s)
    (hb : s.wait.before wfId = none)
    (ha : ∀ d2 wfs, s.wait.after d2 = some wfs → wfId ∉ wfs)
    (hm : s.waitMap wfId = none)
    (hst : (s.wait.st wfId).done = false) :
    SchedInv (schedSubmitStep vnull s ent wfId) := by
  obtain ⟨hI1, hI2, hI3, hI5⟩ := hI
  obtain ⟨sfid, deps⟩ := ent
  cases deps with
  | nil =>
    have hstep : schedSubmitStep vnull s ⟨sfid, []⟩ wfId =
        handleWaitDone
          ⟨⟨Function.update s.wait.st wfId (.finishedValue vnull),
            Function.update s.wait.wfDeps wfId [],
            Function.update s.wait.wfDigest wfId none,
            s.wait.before, s.wait.after⟩,
            Function.update s.waitMap wfId (some ⟨sfid, []⟩),
            s.todo, s.submitted⟩ wfId := by
      simp [schedSubmitStep, waitSubmit, setState, setStateGo, FState.done,
        Function.update_same]
    rw [hstep]
    have hmono : ∀ x, (s.wait.st x).done = true →
        ((Function.update s.wait.st wfId
          (FState.finishedValue vnull : FState V E)) x).done = true := by
      intro x hx
      by_cases hxw : x = wfId
      · subst hxw; rw [Function.update_same]; rfl
      · rw [Function.update_noteq hxw]; exact hx
    refine (handleWaitDone_inv _ wfId ⟨?_, ?_, ?_, ?_⟩ ?_).1
    all_goals dsimp only []
    · intro ent2 hent2 d2 hd2
      exact hmono d2 (hI1 ent2 hent2 d2 hd2)
    · intro wf B hB
      by_cases hww : wf = wfId
      · subst hww
        rw [hb] at hB
        cases hB
      · obtain ⟨hn, hdon⟩ := hI2 wf B hB
        rw [Function.update_noteq hww]
        exact ⟨hn, fun d2 h2 h3 => hmono d2 (hdon d2 h2 h3)⟩
    · intro wf ent2 h2
      by_cases hww : wf = wfId
      · subst hww
        rw [Function.update_same] at h2 ⊢
        cases h2
        rfl
      · rw [Function.update_noteq hww] at h2 ⊢
        exact hI3 wf ent2 h2
    · intro d2 wfs2 h2
      obtain ⟨hn2, hmem2⟩ := hI5 d2 wfs2 h2
      exact ⟨hn2, hmem2⟩
    · intro ent2 h2 d2 hd2
      rw [Function.update_same] at h2
      cases h2
      cases hd2
  | cons d0 rest =>
    have hstep : schedSubmitStep vnull s ⟨sfid, d0 :: rest⟩ wfId =
        if (s.wait.st wfId).done = true then
          handleWaitDone
            ⟨⟨s.wait.st,
              Function.update s.wait.wfDeps wfId (d0 :: rest),
              Function.update s.wait.wfDigest wfId none,
              Function.update s.wait.before wfId (some (d0 :: rest).dedup),
              fun d2 => if d2 ∈ d0 :: rest then
                some (addToSet wfId ((s.wait.after d2).getD []))
                else s.wait.after d2⟩,
              Function.update s.waitMap wfId (some ⟨sfid, d0 :: rest⟩),
              s.todo, s.submitted⟩ wfId
        else
          ⟨⟨s.wait.st,
            Function.update s.wait.wfDeps wfId (d0 :: rest),
            Function.update s.wait.wfDigest wfId none,
            Function.update s.wait.before wfId (some (d0 :: rest).dedup),
            fun d2 => if d2 ∈ d0 :: rest then
              some (addToSet wfId ((s.wait.after d2).getD []))
              else s.wait.after d2⟩,
            Function.update s.waitMap wfId (some ⟨sfid, d0 :: rest⟩),
            s.todo, s.submitted⟩ := by
      simp [schedSubmitStep, waitSubmit, register]
    rw [hstep, if_neg (by rw [hst]; exact Bool.false_ne_true)]
    refine ⟨?_, ?_, ?_, ?_⟩
    all_goals dsimp only []
    · intro ent2 hent2 d2 hd2
      exact hI1 ent2 hent2 d2 hd2
    · intro wf B hB
      by_cases hww : wf = wfId
      · subst hww
        rw [Function.update_same] at hB
        cases hB
        refine ⟨List.nodup_dedup _, ?_⟩
        intro d2 h2 h3
        rw [Function.update_same] at h2
        exact absurd (List.mem_dedup.mpr h2) h3
      · rw [Function.update_noteq hww] at hB
        obtain ⟨hn, hdon⟩ := hI2 wf B hB
        rw [Function.update_noteq hww]
        exact ⟨hn, hdon⟩
    · intro wf ent2 h2
      by_cases hww : wf = wfId
      · subst hww
        rw [Function.update_same] at h2 ⊢
        cases h2
        rfl
      · rw [Function.update_noteq hww] at h2 ⊢
        exact hI3 wf ent2 h2
    · intro d2 wfs2 h2
      by_cases hd2 : d2 ∈ d0 :: rest
      · rw [if_pos hd2] at h2
        cases h2
        constructor
        · cases haft : s.wait.after d2 with
          | none => exact addToSet_nodup List.nodup_nil
          | some old => exact addToSet_nodup (hI5 d2 old haft).1
        · intro wf hwf
          rcases mem_addToSet.mp hwf with hwf | rfl
          · cases haft : s.wait.after d2 with
            | none => rw [haft] at hwf; cases hwf
            | some old =>
              rw [haft] at hwf
              simp only [Option.getD_some] at hwf
              obtain ⟨B, hB, hdB, hBnd⟩ := (hI5 d2 old haft).2 wf hwf
              have hne : wf ≠ wfId := fun hh => ha d2 old haft (hh ▸ hwf)
              rw [Function.update_noteq hne]
              exact ⟨B, hB, hdB, hBnd⟩
          · rw [Function.update_same]
            exact ⟨(d0 :: rest).dedup, rfl, List.mem_dedup.mpr hd2,
              List.nodup_dedup _⟩
      · rw [if_neg hd2] at h2
        obtain ⟨hn2, hmem2⟩ := hI5 d2 wfs2 h2
        refine ⟨hn2, ?_⟩
        intro wf hwf
        obtain ⟨B, hB, hdB, hBnd⟩ := hmem2 wf hwf
        have hne : wf ≠ wfId := fun hh => ha d2 wfs2 h2 (hh ▸ hwf)
        rw [Function.update_noteq hne]
        exact ⟨B, hB, hdB, hBnd⟩

/-- One submit loop iteration preserves the invariant pack. -/
theorem loop_inv {V E : Type} (s : SchedState V E) (hI : SchedInv s) :
    SchedInv (loopStep s) := by
  obtain ⟨hI1, hI2, hI3, hI5⟩ := hI
  rw [loopStep]
  cases ht : s.todo with
  | nil => exact ⟨hI1, hI2, hI3, hI5⟩
  | cons ent rest =>
    refine ⟨?_, hI2, hI3, hI5⟩
    intro ent2 hent2 d2 hd2
    rcases hent2 with hent2 | hent2
    · exact hI1 ent2 (Or.inl (ht ▸ List.mem_cons_of_mem ent hent2)) d2 hd2
    · rcases List.mem_append.mp hent2 with h | h
      · exact hI1 ent2 (Or.inr h) d2 hd2
      · rw [List.mem_singleton] at h
        subst h
        exact hI1 ent2 (Or.inl (ht ▸ List.mem_cons_self ent2 rest)) d2 hd2

/-- Every reachable scheduler state satisfies the invariant pack. -/
theorem schedInv_of_reach {V E : Type} (vnull : V) (s : SchedState V E)
    (hr : SchedReach vnull s) : SchedInv s := by
  induction hr with
  | init st0 =>
    refine ⟨?_, ?_, ?_, ?_⟩
    · intro ent hent d2 hd2
      rcases hent with h | h <;> cases h
    · intro wf B h; cases h
    · intro wf ent h; cases h
    · intro d wfs h; cases h
  | submit ent wfId _ hb ha hm hst ih =>
    exact schedSubmit_inv _ _ ent wfId ih hb ha hm hst
  | depDone d o _ ho ih => exact depDone_inv _ _ d o ho ih
  | loop _ ih => exact loop_inv _ ih

/-- C3: for every scheduled future, `user_submit` (and hence the executor
submission) is invoked only after every recorded dependency has
terminated: in every reachable scheduler state, every entry the submit
loop has handed to `user_submit` has all its dependencies done. -/
theorem C3_user_submit_after_deps {V E : Type} (vnull : V)
    (s : SchedState V E) (hr : SchedReach vnull s) :
    ∀ ent ∈ s.submitted, ∀ d2 ∈ ent.deps, (s.wait.st d2).done = true :=
  fun ent hent d2 hd2 =>
    (schedInv_of_reach vnull s hr).1 ent (Or.inr hent) d2 hd2

/-- The initial scheduler state of the C3 witness: every future pending,
nothing registered. -/
def sInit : SchedState Nat Nat :=
  ⟨⟨fun _ => .pending, fun _ => [], fun _ => none, fun _ => none,
    fun _ => none⟩, fun _ => none, [], []⟩

/-- The C3 witness run: submit scheduled future 0 with dependency 1 under
wait future 5, let dependency 1 finish with a value, run the submit loop. -/
def sC3 : SchedState Nat Nat :=
  loopStep (depDoneStep 0 (schedSubmitStep 0 sInit ⟨0, [1]⟩ 5) 1
    (.finishedValue 3))

/-- Witness for C3: in the concrete run the entry was really submitted and
its dependency is done. -/
theorem C3_user_submit_after_deps_witness :
    (∀ ent ∈ sC3.submitted, ∀ d2 ∈ ent.deps, (sC3.wait.st d2).done = true) ∧
    sC3.submitted = [⟨0, [1]⟩] := by
  refine ⟨C3_user_submit_after_deps 0 sC3 ?_, by decide⟩
  exact SchedReach.loop (SchedReach.depDone 1 (.finishedValue 3)
    (SchedReach.submit ⟨0, [1]⟩ 5 (SchedReach.init (fun _ => .pending)) rfl
      (fun d2 wfs h => by cases h) rfl rfl) rfl)

/-! ## Scheduler.submit with the default dependencies (C9) -/

/-- Python exceptions the submission path can raise. -/
inductive PyExc where
  | typeError : PyExc
  | runtimeError : PyExc
deriving DecidableEq, Repr

/-- `WaitFuture.__init__`: it iterates `dependencies` to check that every
element is a Future; iterating `None` raises `TypeError` before anything
else happens. In the model every name denotes a future, so a provided
collection always passes the isinstance check. -/
def waitFutureInit (dependencies : Option (List Nat)) :
    Except PyExc (List Nat) :=
  match dependencies with
  | none => .error .typeError
  | some deps => .ok deps

/-- `WaitGraph.submit` as invoked by `Scheduler.submit` (no digest), with
the optional `dependencies` argument: the WaitFuture constructor runs
first, so `None` raises before the empty check or any registration. -/
def waitGraphSubmitOpt {V E : Type} (vnull : V) (w : WaitWorld V E) (wf : Nat)
    (dependencies : Option (List Nat)) : Except PyExc (WaitWorld V E) :=
  match waitFutureInit dependencies with
  | .error e => .error e
  | .ok deps => .ok (waitSubmit vnull w wf deps none)

/-- `Scheduler.submit`: after the shutdown check it calls
`wait_graph.submit(dependencies)`; the Python default for `dependencies`
is `None`. -/
def schedulerSubmit {V E : Type} (shutdown : Bool) (vnull : V)
    (w : WaitWorld V E) (wf : Nat) (dependencies : Option (List Nat)) :
    Except PyExc (WaitWorld V E) :=
  if shutdown then .error .runtimeError
  else waitGraphSubmitOpt vnull w wf dependencies

/-- C9: `Scheduler.submit` with the `dependencies` parameter left at its
default `None` raises `TypeError` (from iterating `None` in the WaitFuture
constructor) instead of behaving like a submission with an empty
dependency collection, which succeeds. -/
theorem C9_default_dependencies_type_error {V E : Type} (vnull : V)
    (w : WaitWorld V E) (wf : Nat) :
    schedulerSubmit false vnull w wf none = .error PyExc.typeError ∧
    ∀ deps, schedulerSubmit false vnull w wf (some deps)
      = .ok (waitSubmit vnull w wf deps none) :=
  ⟨rfl, fun _ => rfl⟩

end Parman
